import Mathlib

/-!
Verification of the heuristic CV information-extraction pipeline
(`src/services/ai_extractor_improved.py`, class `AIExtractorImproved`).

Texts are embedded as `List Char` (Python `str`).  Python's `re` searches are
embedded as specialized deterministic matchers for each concrete pattern of the
source, following Python's leftmost / greedy-with-backtracking semantics (the
`re` module of CPython 3.11, the version family the repository runs on; in
particular `\bc++\b` — built for the technical keyword `c++` — parses as a
possessive repetition there rather than raising).  Character classes `\w`, `\d`
and case folding are modelled over ASCII, which covers every literal vocabulary
of the source except the accented letters inside French literals, which are
compared verbatim.
-/

/-- Python `str.isspace` / regex `\s` (the whitespace set also used by
`str.strip`). -/
def pyIsSpace (c : Char) : Bool :=
  let n := c.toNat
  n == 0x20 || (0x09 ≤ n && n ≤ 0x0D) || (0x1C ≤ n && n ≤ 0x1F) ||
  n == 0x85 || n == 0xA0 || n == 0x1680 || (0x2000 ≤ n && n ≤ 0x200A) ||
  n == 0x2028 || n == 0x2029 || n == 0x202F || n == 0x205F || n == 0x3000

/-- The control characters removed by `_clean_text_improved`:
`[\x00-\x08\x0B\x0C\x0E-\x1F\x7F]`. -/
def isCtl (c : Char) : Bool :=
  let n := c.toNat
  n ≤ 0x08 || n == 0x0B || n == 0x0C || (0x0E ≤ n && n ≤ 0x1F) || n == 0x7F

/-- Embeds `re.sub(r'[\x00-\x08\x0B\x0C\x0E-\x1F\x7F]', '', text)`. -/
def removeCtl (l : List Char) : List Char := l.filter (fun c => !isCtl c)

/-- Embeds `re.sub(r' {2,}', ' ', text)`: collapse each run of spaces to one space. -/
def collapseSpaces : List Char → List Char
  | [] => []
  | [c] => [c]
  | a :: b :: t =>
    if a = ' ' ∧ b = ' ' then collapseSpaces (b :: t)
    else a :: collapseSpaces (b :: t)

/-- Suffix of a list strictly after its last `'\n'` (whole list if none). -/
def tailAfterLastNl (l : List Char) : List Char :=
  (l.reverse.takeWhile (fun c => c ≠ '\n')).reverse

/-- Embeds `re.sub(r'\n\s*\n\s*\n+', '\n\n', text)`.  A match starts at the first
newline of a maximal whitespace run containing at least three newlines and
extends (greedily) through the last newline of that run; it is replaced by two
newlines and scanning resumes after the replaced stretch.  Structured with a
fuel argument (instantiated with the text length, enough to consume the whole
text) so the definition computes by kernel reduction. -/
def cbScanF : Nat → List Char → List Char
  | _, [] => []
  | 0, l => l
  | f + 1, c :: t =>
    if c = '\n' then
      if 3 ≤ 1 + (t.takeWhile pyIsSpace).countP (fun x => x = '\n') then
        '\n' :: '\n' :: cbScanF f (tailAfterLastNl (t.takeWhile pyIsSpace) ++ t.dropWhile pyIsSpace)
      else
        c :: cbScanF f t
    else
      c :: cbScanF f t

/-- The blank-run collapsing pass, with enough fuel for the whole text. -/
def cbScan (l : List Char) : List Char := cbScanF l.length l

/-- Python `str.lstrip()` (whitespace). -/
def stripL (l : List Char) : List Char := l.dropWhile pyIsSpace

/-- Python `str.rstrip()` (whitespace). -/
def stripR (l : List Char) : List Char := (l.reverse.dropWhile pyIsSpace).reverse

/-- Python `str.strip()` (whitespace). -/
def stripChars (l : List Char) : List Char := stripR (stripL l)

/-- Python `str.split('\n')` (in particular `splitNl [] = [[]]`). -/
def splitNl : List Char → List (List Char)
  | [] => [[]]
  | c :: t =>
    if c = '\n' then [] :: splitNl t
    else
      match splitNl t with
      | [] => [[c]]
      | h :: rest => (c :: h) :: rest

/-- Python `'\n'.join`. -/
def joinNl : List (List Char) → List Char
  | [] => []
  | [x] => x
  | x :: xs => x ++ '\n' :: joinNl xs

/-- The line stage of `_clean_text_improved`: split on newlines, strip each
line, keep the non-empty ones. -/
def cleanLines (l : List Char) : List (List Char) :=
  ((splitNl l).map stripChars).filter (fun x => x ≠ [])

/-- Embeds `_clean_text_improved`: the text normalizer.  `if not text: return ""`,
then control-character removal, space collapsing, blank-run collapsing, line
stripping/filtering, and a final strip.  (The `try/except` of the source cannot
fire on the pure pipeline.) -/
def cleanText (l : List Char) : List Char :=
  if l = [] then []
  else stripChars (joinNl (cleanLines (cbScan (collapseSpaces (removeCtl l)))))

/-- Embedding of a Lean string literal as a Python text. -/
def str (s : String) : List Char := s.data

example : cleanText (str "a\n\n\n\n  b  c ") = str "a\nb c" := by decide
example : cleanText (str "") = [] := by decide
example : cbScan (str "a\n\n\n  b") = str "a\n\n  b" := by decide
example : cbScan (str "a \n \n \n b") = str "a \n\n b" := by decide
example : stripChars (str "  ab ") = str "ab" := by decide

/-! ### Idempotence of the normalizer: supporting lemmas -/

theorem suffAppend {s r d : List Char} (h : s <:+ r) : s ++ d <:+ r ++ d := by
  obtain ⟨u, rfl⟩ := h
  exact ⟨u, (List.append_assoc u s d).symm⟩

/-- No character of the control-character exclusion set. -/
def NoCtl (l : List Char) : Prop := ∀ c ∈ l, isCtl c = false

/-- Adjacency relation: no two adjacent literal spaces. -/
def RSp (a b : Char) : Prop := ¬(a = ' ' ∧ b = ' ')

/-- Adjacency relation: a newline is never followed by whitespace. -/
def RNl (a b : Char) : Prop := a = '\n' → pyIsSpace b = false

/-- Every line is non-empty, already stripped, and contains no newline. -/
def GoodLines (ls : List (List Char)) : Prop :=
  ∀ x ∈ ls, x ≠ [] ∧ stripChars x = x ∧ '\n' ∉ x

/-- The fixed points of `cleanText`. -/
def CleanFixed (l : List Char) : Prop :=
  l = [] ∨ (NoCtl l ∧ List.Chain' RSp l ∧ List.Chain' RNl l ∧
    GoodLines (splitNl l) ∧ stripChars l = l)

theorem dropWhileHeadFalse {p : Char → Bool} {l : List Char} {c : Char} {t : List Char}
    (h : l.dropWhile p = c :: t) : p c = false := by
  induction l with
  | nil => simp at h
  | cons a l ih =>
    rw [List.dropWhile_cons] at h
    by_cases hp : p a
    · exact ih (by simpa [hp] using h)
    · simp [hp] at h
      simp [← h.1, hp]

theorem dropWhileEqSelf {p : Char → Bool} {l : List Char}
    (h : ∀ c ∈ l.head?, p c = false) : l.dropWhile p = l := by
  cases l with
  | nil => rfl
  | cons c t => simp [List.dropWhile_cons, h c (by simp)]

theorem dropWhileIdem {p : Char → Bool} (l : List Char) :
    (l.dropWhile p).dropWhile p = l.dropWhile p := by
  apply dropWhileEqSelf
  intro c hc
  cases h : l.dropWhile p with
  | nil => simp [h] at hc
  | cons a t =>
    simp [h] at hc
    simpa [hc] using dropWhileHeadFalse h

theorem stripRPref (m : List Char) : stripR m <+: m := by
  unfold stripR
  refine ⟨((m.reverse.takeWhile pyIsSpace)).reverse, ?_⟩
  rw [← List.reverse_append, List.takeWhile_append_dropWhile, List.reverse_reverse]

theorem stripLPref (l : List Char) : stripChars l <+: stripL l := stripRPref (stripL l)

theorem stripCharsSublist (l : List Char) : List.Sublist (stripChars l) l :=
  ((stripLPref l).sublist).trans ((List.dropWhile_suffix pyIsSpace).sublist)

theorem stripCharsInfix (l : List Char) : stripChars l <:+: l :=
  ((stripLPref l).isInfix).trans ((List.dropWhile_suffix pyIsSpace).isInfix)

theorem memStripChars {l : List Char} {c : Char} (h : c ∈ stripChars l) : c ∈ l :=
  (stripCharsSublist l).subset h

theorem stripCharsChain {R : Char → Char → Prop} {l : List Char}
    (h : List.Chain' R l) : List.Chain' R (stripChars l) :=
  h.infix (stripCharsInfix l)

theorem stripREqSelf {l : List Char}
    (h : ∀ c ∈ l.getLast?, pyIsSpace c = false) : stripR l = l := by
  unfold stripR
  rw [dropWhileEqSelf (by simpa [List.head?_reverse] using h), List.reverse_reverse]

theorem stripLHead {l : List Char} : ∀ c ∈ (stripL l).head?, pyIsSpace c = false := by
  intro c hc
  cases h : stripL l with
  | nil => simp [h] at hc
  | cons a t =>
    simp [h] at hc
    subst hc
    exact dropWhileHeadFalse h

theorem prefHead {l m : List Char} (h : l <+: m) (hne : l ≠ []) :
    l.head? = m.head? := by
  obtain ⟨t, rfl⟩ := h
  cases l with
  | nil => exact absurd rfl hne
  | cons c u => rfl

theorem stripCharsIdem (l : List Char) : stripChars (stripChars l) = stripChars l := by
  by_cases h : stripChars l = []
  · rw [h]; rfl
  · have h1 : stripL (stripChars l) = stripChars l := by
      apply dropWhileEqSelf
      intro c hc
      rw [prefHead (stripLPref l) h] at hc
      exact stripLHead c hc
    show stripR (stripL (stripChars l)) = stripChars l
    rw [h1]
    conv_lhs => rw [show stripChars l = stripR (stripL l) from rfl]
    unfold stripR
    rw [List.reverse_reverse, dropWhileIdem]
    rfl

theorem stripCharsHead {l : List Char} (h : stripChars l = l) :
    ∀ c ∈ l.head?, pyIsSpace c = false := by
  intro c hc
  rcases eq_or_ne l [] with rfl | hne
  · simp at hc
  · have hsc : stripChars l ≠ [] := by rw [h]; exact hne
    have he := prefHead (stripLPref l) hsc
    rw [h] at he
    rw [he] at hc
    exact stripLHead c hc

theorem stripCharsLast {l : List Char} (h : stripChars l = l) :
    ∀ c ∈ l.getLast?, pyIsSpace c = false := by
  intro c hc
  have h1 : stripR (stripL l) = l := h
  have h3 : l.reverse = (stripL l).reverse.dropWhile pyIsSpace := by
    have h4 := congrArg List.reverse h1
    rw [stripR, List.reverse_reverse] at h4
    exact h4.symm
  rw [← List.head?_reverse, h3] at hc
  cases hr : (stripL l).reverse.dropWhile pyIsSpace with
  | nil => simp [hr] at hc
  | cons a t =>
    rw [hr] at hc
    simp at hc
    subst hc
    exact dropWhileHeadFalse hr

theorem stripEqSelfOfEnds {l : List Char}
    (h1 : ∀ c ∈ l.head?, pyIsSpace c = false)
    (h2 : ∀ c ∈ l.getLast?, pyIsSpace c = false) : stripChars l = l := by
  unfold stripChars
  rw [show stripL l = l from dropWhileEqSelf h1]
  exact stripREqSelf h2

theorem collapseSpacesHead (l : List Char) : (collapseSpaces l).head? = l.head? := by
  induction l using collapseSpaces.induct with
  | case1 => rfl
  | case2 c => rfl
  | case3 a b t hab ih =>
    rw [collapseSpaces, if_pos hab, ih, hab.1, hab.2]
    rfl
  | case4 a b t hab ih => rw [collapseSpaces, if_neg hab]; rfl

theorem chainRSpCollapse (l : List Char) : List.Chain' RSp (collapseSpaces l) := by
  induction l using collapseSpaces.induct with
  | case1 => simp [collapseSpaces]
  | case2 c => simp [collapseSpaces]
  | case3 a b t hab ih => rw [collapseSpaces, if_pos hab]; exact ih
  | case4 a b t hab ih =>
    rw [collapseSpaces, if_neg hab]
    rw [List.chain'_cons']
    refine ⟨?_, ih⟩
    intro y hy
    rw [collapseSpacesHead] at hy
    simp at hy
    subst hy
    exact hab

theorem collapseEqSelf {l : List Char} (h : List.Chain' RSp l) :
    collapseSpaces l = l := by
  induction l using collapseSpaces.induct with
  | case1 => rfl
  | case2 c => rfl
  | case3 a b t hab ih => exact absurd hab (List.chain'_cons.mp h).1
  | case4 a b t hab ih =>
    rw [collapseSpaces, if_neg hab, ih (List.chain'_cons.mp h).2]

theorem memCollapse {l : List Char} {c : Char} (h : c ∈ collapseSpaces l) : c ∈ l := by
  induction l using collapseSpaces.induct with
  | case1 => simp [collapseSpaces] at h
  | case2 d => simpa [collapseSpaces] using h
  | case3 a b t hab ih =>
    rw [collapseSpaces, if_pos hab] at h
    exact List.mem_cons_of_mem _ (ih h)
  | case4 a b t hab ih =>
    rw [collapseSpaces, if_neg hab] at h
    rcases List.mem_cons.mp h with rfl | h2
    · exact List.mem_cons_self _ _
    · exact List.mem_cons_of_mem _ (ih h2)

theorem tailAfterLastNlSublist (r : List Char) :
    List.Sublist (tailAfterLastNl r) r := by
  unfold tailAfterLastNl
  have h6 : List.Sublist (r.reverse.takeWhile (fun c => c ≠ '\n')) r.reverse :=
    List.takeWhile_sublist _
  simpa using h6.reverse

theorem tailAfterLastNlSuffix (r : List Char) : tailAfterLastNl r <:+ r := by
  unfold tailAfterLastNl
  obtain ⟨u, hu⟩ := List.takeWhile_prefix (l := r.reverse) (fun c => c ≠ '\n')
  refine ⟨u.reverse, ?_⟩
  have := congrArg List.reverse hu
  rw [List.reverse_append] at this
  simpa using this

theorem cbScanFHead (f : Nat) (l : List Char) : (cbScanF f l).head? = l.head? := by
  induction f, l using cbScanF.induct with
  | case1 f => cases f <;> rfl
  | case2 l hne => cases l with
    | nil => exact absurd rfl hne
    | cons a t => rfl
  | case3 f t hcnt ih =>
    rw [show cbScanF f.succ ('\n' :: t) =
        '\n' :: '\n' :: cbScanF f (tailAfterLastNl (t.takeWhile pyIsSpace) ++ t.dropWhile pyIsSpace) by
      rw [cbScanF]; rw [if_pos rfl, if_pos hcnt]]
    rfl
  | case4 f t hcnt ih =>
    rw [show cbScanF f.succ ('\n' :: t) = '\n' :: cbScanF f t by
      rw [cbScanF]; rw [if_pos rfl, if_neg hcnt]]
    rfl
  | case5 f c' t hnl ih =>
    rw [show cbScanF f.succ (c' :: t) = c' :: cbScanF f t by
      rw [cbScanF]; rw [if_neg hnl]]
    rfl

theorem chainRSpCbScanF {f : Nat} {l : List Char} (h : List.Chain' RSp l) :
    List.Chain' RSp (cbScanF f l) := by
  induction f, l using cbScanF.induct with
  | case1 f => cases f <;> simp [cbScanF]
  | case2 l hne =>
    cases l with
    | nil => exact absurd rfl hne
    | cons a t => exact h
  | case3 f t hcnt ih =>
    rw [show cbScanF f.succ ('\n' :: t) =
        '\n' :: '\n' :: cbScanF f (tailAfterLastNl (t.takeWhile pyIsSpace) ++ t.dropWhile pyIsSpace) by
      rw [cbScanF]; rw [if_pos rfl, if_pos hcnt]]
    have ht : List.Chain' RSp t := (List.chain'_cons'.mp h).2
    have hsfx : tailAfterLastNl (t.takeWhile pyIsSpace) ++ t.dropWhile pyIsSpace <:+ t := by
      have h1 := suffAppend (d := t.dropWhile pyIsSpace) (tailAfterLastNlSuffix (t.takeWhile pyIsSpace))
      rwa [List.takeWhile_append_dropWhile] at h1
    have hc := ih (ht.suffix hsfx)
    rw [List.chain'_cons']
    refine ⟨fun y _ => by simp [RSp], ?_⟩
    rw [List.chain'_cons']
    exact ⟨fun y _ => by simp [RSp], hc⟩
  | case4 f t hcnt ih =>
    rw [show cbScanF f.succ ('\n' :: t) = '\n' :: cbScanF f t by
      rw [cbScanF]; rw [if_pos rfl, if_neg hcnt]]
    rw [List.chain'_cons']
    refine ⟨fun y _ => by simp [RSp], ih (List.chain'_cons'.mp h).2⟩
  | case5 f c' t hnl ih =>
    rw [show cbScanF f.succ (c' :: t) = c' :: cbScanF f t by
      rw [cbScanF]; rw [if_neg hnl]]
    rw [List.chain'_cons']
    refine ⟨?_, ih (List.chain'_cons'.mp h).2⟩
    intro y hy
    rw [cbScanFHead] at hy
    exact (List.chain'_cons'.mp h).1 y hy

theorem cbScanFId {f : Nat} {l : List Char} (h : List.Chain' RNl l) :
    cbScanF f l = l := by
  induction f, l using cbScanF.induct with
  | case1 f => cases f <;> rfl
  | case2 l hne => cases l with
    | nil => exact absurd rfl hne
    | cons a t => rfl
  | case3 f t hcnt ih =>
    exfalso
    have hhead : ∀ c ∈ t.head?, pyIsSpace c = false := by
      intro c hc
      exact (List.chain'_cons'.mp h).1 c hc rfl
    have htw : t.takeWhile pyIsSpace = [] := by
      cases t with
      | nil => rfl
      | cons a u =>
        have := hhead a (by simp)
        simp [List.takeWhile_cons, this]
    rw [htw] at hcnt
    simp at hcnt
  | case4 f t hcnt ih =>
    rw [show cbScanF f.succ ('\n' :: t) = '\n' :: cbScanF f t by
      rw [cbScanF]; rw [if_pos rfl, if_neg hcnt]]
    rw [ih (List.chain'_cons'.mp h).2]
  | case5 f c' t hnl ih =>
    rw [show cbScanF f.succ (c' :: t) = c' :: cbScanF f t by
      rw [cbScanF]; rw [if_neg hnl]]
    rw [ih (List.chain'_cons'.mp h).2]

theorem memCbScanF {f : Nat} {l : List Char} {c : Char} (h : c ∈ cbScanF f l) :
    c ∈ l ∨ c = '\n' := by
  induction f, l using cbScanF.induct with
  | case1 f => simp [cbScanF] at h
  | case2 l hne =>
    cases l with
    | nil => exact absurd rfl hne
    | cons a t => exact Or.inl h
  | case3 f t hcnt ih =>
    rw [show cbScanF f.succ ('\n' :: t) =
        '\n' :: '\n' :: cbScanF f (tailAfterLastNl (t.takeWhile pyIsSpace) ++ t.dropWhile pyIsSpace) by
      rw [cbScanF]; rw [if_pos rfl, if_pos hcnt]] at h
    rcases List.mem_cons.mp h with rfl | h2
    · exact Or.inr rfl
    rcases List.mem_cons.mp h2 with rfl | h3
    · exact Or.inr rfl
    rcases ih h3 with h4 | h4
    · rcases List.mem_append.mp h4 with h5 | h5
      · refine Or.inl (List.mem_cons_of_mem _ ?_)
        exact (List.takeWhile_sublist _).subset ((tailAfterLastNlSublist _).subset h5)
      · exact Or.inl (List.mem_cons_of_mem _ ((List.dropWhile_suffix pyIsSpace).sublist.subset h5))
    · exact Or.inr h4
  | case4 f t hcnt ih =>
    rw [show cbScanF f.succ ('\n' :: t) = '\n' :: cbScanF f t by
      rw [cbScanF]; rw [if_pos rfl, if_neg hcnt]] at h
    rcases List.mem_cons.mp h with rfl | h2
    · exact Or.inl (List.mem_cons_self _ _)
    · rcases ih h2 with h3 | h3
      · exact Or.inl (List.mem_cons_of_mem _ h3)
      · exact Or.inr h3
  | case5 f c' t hnl ih =>
    rw [show cbScanF f.succ (c' :: t) = c' :: cbScanF f t by
      rw [cbScanF]; rw [if_neg hnl]] at h
    rcases List.mem_cons.mp h with rfl | h2
    · exact Or.inl (List.mem_cons_self _ _)
    · rcases ih h2 with h3 | h3
      · exact Or.inl (List.mem_cons_of_mem _ h3)
      · exact Or.inr h3

theorem splitNlNeNil (l : List Char) : splitNl l ≠ [] := by
  cases l with
  | nil => simp [splitNl]
  | cons c t =>
    rw [splitNl]
    by_cases h : c = '\n'
    · simp [h]
    · simp only [if_neg h]
      cases splitNl t <;> simp

theorem joinNlCons (x y : List Char) (ys : List (List Char)) :
    joinNl (x :: y :: ys) = x ++ '\n' :: joinNl (y :: ys) := rfl

theorem joinSplit (l : List Char) : joinNl (splitNl l) = l := by
  induction l with
  | nil => rfl
  | cons c t ih =>
    rw [splitNl]
    by_cases h : c = '\n'
    · subst h
      rw [if_pos rfl]
      cases hs : splitNl t with
      | nil => exact absurd hs (splitNlNeNil t)
      | cons y ys =>
        calc joinNl ([] :: y :: ys) = '\n' :: joinNl (y :: ys) := rfl
          _ = '\n' :: joinNl (splitNl t) := by rw [hs]
          _ = '\n' :: t := by rw [ih]
    · rw [if_neg h]
      cases hs : splitNl t with
      | nil => exact absurd hs (splitNlNeNil t)
      | cons y ys =>
        cases ys with
        | nil =>
          have hy : joinNl [y] = t := by rw [← hs, ih]
          show joinNl [c :: y] = c :: t
          show c :: y = c :: t
          rw [show y = t from hy]
        | cons z zs =>
          have ht : joinNl (y :: z :: zs) = t := by rw [← hs, ih]
          show joinNl ((c :: y) :: z :: zs) = c :: t
          calc joinNl ((c :: y) :: z :: zs)
              = (c :: y) ++ '\n' :: joinNl (z :: zs) := rfl
            _ = c :: (y ++ '\n' :: joinNl (z :: zs)) := rfl
            _ = c :: joinNl (y :: z :: zs) := rfl
            _ = c :: t := by rw [ht]

theorem prefConsCons {c : Char} {y t : List Char} (h : y <+: t) : c :: y <+: c :: t := by
  obtain ⟨u, rfl⟩ := h
  exact ⟨u, rfl⟩

theorem infixConsRight {c : Char} {x t : List Char} (h : x <:+: t) : x <:+: c :: t := by
  obtain ⟨s, u, hu⟩ := h
  exact ⟨c :: s, u, by rw [← hu]; rfl⟩

theorem noNlSplit {l : List Char} : ∀ x ∈ splitNl l, '\n' ∉ x := by
  induction l with
  | nil =>
    intro x hx
    simp [splitNl] at hx
    simp [hx]
  | cons c t ih =>
    intro x hx
    rw [splitNl] at hx
    by_cases h : c = '\n'
    · rw [if_pos h] at hx
      rcases List.mem_cons.mp hx with rfl | h2
      · simp
      · exact ih x h2
    · rw [if_neg h] at hx
      cases hs : splitNl t with
      | nil => exact absurd hs (splitNlNeNil t)
      | cons y ys =>
        rw [hs] at hx
        have hy : y ∈ splitNl t := by rw [hs]; exact List.mem_cons_self y ys
        rcases List.mem_cons.mp hx with rfl | h2
        · intro hm
          rcases List.mem_cons.mp hm with h3 | h3
          · exact h h3.symm
          · exact ih y hy h3
        · exact ih x (by rw [hs]; exact List.mem_cons_of_mem y h2)

theorem splitNlHeadPref {l h : List Char} {rest : List (List Char)}
    (he : splitNl l = h :: rest) : h <+: l := by
  induction l generalizing h rest with
  | nil =>
    rw [splitNl] at he
    injection he with h1 h2
    simp [← h1]
  | cons c t ih =>
    rw [splitNl] at he
    by_cases hc : c = '\n'
    · rw [if_pos hc] at he
      injection he with h1 h2
      simp [← h1]
    · rw [if_neg hc] at he
      cases hs : splitNl t with
      | nil => exact absurd hs (splitNlNeNil t)
      | cons y ys =>
        rw [hs] at he
        injection he with h1 h2
        rw [← h1]
        exact prefConsCons (ih hs)

theorem splitNlInfix {l x : List Char} (hx : x ∈ splitNl l) : x <:+: l := by
  induction l with
  | nil =>
    simp [splitNl] at hx
    simp [hx]
  | cons c t ih =>
    rw [splitNl] at hx
    by_cases h : c = '\n'
    · rw [if_pos h] at hx
      rcases List.mem_cons.mp hx with rfl | h2
      · exact List.nil_infix
      · exact infixConsRight (ih h2)
    · rw [if_neg h] at hx
      cases hs : splitNl t with
      | nil => exact absurd hs (splitNlNeNil t)
      | cons y ys =>
        rw [hs] at hx
        rcases List.mem_cons.mp hx with rfl | h2
        · exact (prefConsCons (splitNlHeadPref hs)).isInfix
        · exact infixConsRight (ih (by rw [hs]; exact List.mem_cons_of_mem y h2))

theorem memSplitNl {l x : List Char} {c : Char} (hx : x ∈ splitNl l) (hc : c ∈ x) :
    c ∈ l := (splitNlInfix hx).sublist.subset hc

theorem chainSplitNl {R : Char → Char → Prop} {l x : List Char}
    (h : List.Chain' R l) (hx : x ∈ splitNl l) : List.Chain' R x :=
  h.infix (splitNlInfix hx)

theorem splitNoNl {x : List Char} (h : '\n' ∉ x) : splitNl x = [x] := by
  induction x with
  | nil => rfl
  | cons c t ih =>
    rw [splitNl, if_neg (fun hc : c = '\n' => h (hc ▸ List.mem_cons_self c t))]
    rw [ih (fun hm => h (List.mem_cons_of_mem c hm))]

theorem splitAppendNl {x r : List Char} (h : '\n' ∉ x) :
    splitNl (x ++ '\n' :: r) = x :: splitNl r := by
  induction x with
  | nil => simp [splitNl]
  | cons c t ih =>
    rw [List.cons_append, splitNl,
      if_neg (fun hc : c = '\n' => h (hc ▸ List.mem_cons_self c t)),
      ih (fun hm => h (List.mem_cons_of_mem c hm))]

theorem splitJoin {ls : List (List Char)} (hne : ls ≠ [])
    (h : ∀ x ∈ ls, '\n' ∉ x) : splitNl (joinNl ls) = ls := by
  induction ls with
  | nil => exact absurd rfl hne
  | cons x xs ih =>
    cases xs with
    | nil =>
      rw [joinNl, splitNoNl (h x (List.mem_cons_self x []))]
    | cons y ys =>
      rw [joinNlCons, splitAppendNl (h x (List.mem_cons_self x _))]
      rw [ih (by simp) (fun z hz => h z (List.mem_cons_of_mem x hz))]

theorem joinNlHead {y : List Char} {ys : List (List Char)} (hy : y ≠ []) :
    (joinNl (y :: ys)).head? = y.head? := by
  cases ys with
  | nil => rfl
  | cons z zs =>
    rw [joinNlCons]
    cases y with
    | nil => exact absurd rfl hy
    | cons a u => rfl

theorem chainRNlOfNoNl {x : List Char} (h : '\n' ∉ x) : List.Chain' RNl x := by
  induction x with
  | nil => simp
  | cons c t ih =>
    rw [List.chain'_cons']
    refine ⟨?_, ih (fun hm => h (List.mem_cons_of_mem c hm))⟩
    intro y _ hc
    exact absurd (hc ▸ List.mem_cons_self c t) h

theorem joinChain {R : Char → Char → Prop} {ls : List (List Char)}
    (h1 : ∀ x ∈ ls, ∀ c ∈ x.getLast?, R c '\n')
    (h2 : ∀ x ∈ ls, ∀ c ∈ x.head?, R '\n' c)
    (hc : ∀ x ∈ ls, List.Chain' R x)
    (hne : ∀ x ∈ ls, x ≠ []) : List.Chain' R (joinNl ls) := by
  induction ls with
  | nil => simp [joinNl]
  | cons x xs ih =>
    cases xs with
    | nil => exact hc x (List.mem_cons_self x [])
    | cons y ys =>
      rw [joinNlCons]
      rw [List.chain'_append]
      refine ⟨hc x (List.mem_cons_self x _), ?_, ?_⟩
      · rw [List.chain'_cons']
        refine ⟨?_, ?_⟩
        · intro c hcm
          rw [joinNlHead (hne y (by simp))] at hcm
          exact h2 y (by simp) c hcm
        · exact ih (fun z hz => h1 z (List.mem_cons_of_mem x hz))
            (fun z hz => h2 z (List.mem_cons_of_mem x hz))
            (fun z hz => hc z (List.mem_cons_of_mem x hz))
            (fun z hz => hne z (List.mem_cons_of_mem x hz))
      · intro a ha b hb
        simp at hb
        subst hb
        exact h1 x (List.mem_cons_self x _) a ha

theorem memJoin {ls : List (List Char)} {c : Char} (h : c ∈ joinNl ls) :
    (∃ x ∈ ls, c ∈ x) ∨ c = '\n' := by
  induction ls with
  | nil => simp [joinNl] at h
  | cons x xs ih =>
    cases xs with
    | nil => exact Or.inl ⟨x, by simp, h⟩
    | cons y ys =>
      rw [joinNlCons] at h
      rcases List.mem_append.mp h with h2 | h2
      · exact Or.inl ⟨x, by simp, h2⟩
      · rcases List.mem_cons.mp h2 with rfl | h3
        · exact Or.inr rfl
        · rcases ih h3 with ⟨z, hz, hcz⟩ | h4
          · exact Or.inl ⟨z, List.mem_cons_of_mem x hz, hcz⟩
          · exact Or.inr h4

theorem joinNlLastNoWs {ls : List (List Char)}
    (h : ∀ x ∈ ls, x ≠ [] ∧ stripChars x = x) :
    ∀ c ∈ (joinNl ls).getLast?, pyIsSpace c = false := by
  induction ls with
  | nil => simp [joinNl]
  | cons x xs ih =>
    cases xs with
    | nil =>
      show ∀ c ∈ x.getLast?, pyIsSpace c = false
      exact stripCharsLast (h x (by simp)).2
    | cons y ys =>
      intro c hcm
      have hjne : joinNl (y :: ys) ≠ [] := by
        cases ys with
        | nil => exact (h y (by simp)).1
        | cons z zs =>
          rw [joinNlCons]
          cases hy : y with
          | nil => exact absurd hy (h y (by simp)).1
          | cons a u => simp
      rw [joinNlCons] at hcm
      rw [List.getLast?_append_of_ne_nil] at hcm
      · apply ih (fun z hz => h z (List.mem_cons_of_mem x hz)) c
        cases hj : joinNl (y :: ys) with
        | nil => exact absurd hj hjne
        | cons a u =>
          rw [hj] at hcm
          rw [List.getLast?_cons_cons] at hcm
          exact hcm
      · simp

theorem stripJoin {ls : List (List Char)}
    (h : ∀ x ∈ ls, x ≠ [] ∧ stripChars x = x) :
    stripChars (joinNl ls) = joinNl ls := by
  cases ls with
  | nil => rfl
  | cons x xs =>
    apply stripEqSelfOfEnds
    · intro c hcm
      rw [joinNlHead (h x (by simp)).1] at hcm
      exact stripCharsHead (h x (by simp)).2 c hcm
    · exact joinNlLastNoWs h

theorem memOfGetLast {l : List Char} {c : Char} (h : c ∈ l.getLast?) : c ∈ l := by
  rcases List.mem_getLast?_eq_getLast h with ⟨hne, rfl⟩
  exact List.getLast_mem hne

theorem memOfHead {l : List Char} {c : Char} (h : c ∈ l.head?) : c ∈ l := by
  cases l with
  | nil => simp at h
  | cons a t =>
    simp at h
    simp [h]

theorem mapEqSelf {f : List Char → List Char} {l : List (List Char)}
    (h : ∀ x ∈ l, f x = x) : l.map f = l := by
  induction l with
  | nil => rfl
  | cons x xs ih =>
    rw [List.map_cons, h x (by simp), ih (fun y hy => h y (List.mem_cons_of_mem x hy))]

theorem goodCleanLines (m : List Char) : GoodLines (cleanLines m) := by
  intro x hx
  unfold cleanLines at hx
  have h1 := List.mem_filter.mp hx
  obtain ⟨y, hy, rfl⟩ := List.mem_map.mp h1.1
  refine ⟨by simpa using h1.2, stripCharsIdem y, ?_⟩
  intro hm
  exact noNlSplit y hy (memStripChars hm)

theorem cleanFixedOutput (l : List Char) : CleanFixed (cleanText l) := by
  unfold cleanText
  by_cases hl : l = []
  · rw [if_pos hl]; exact Or.inl rfl
  rw [if_neg hl]
  have hgood : GoodLines (cleanLines (cbScan (collapseSpaces (removeCtl l)))) :=
    goodCleanLines _
  have hstrip : stripChars (joinNl (cleanLines (cbScan (collapseSpaces (removeCtl l))))) =
      joinNl (cleanLines (cbScan (collapseSpaces (removeCtl l)))) :=
    stripJoin (fun x hx => ⟨(hgood x hx).1, (hgood x hx).2.1⟩)
  rw [hstrip]
  cases hlsc : cleanLines (cbScan (collapseSpaces (removeCtl l))) with
  | nil => exact Or.inl rfl
  | cons x0 xs0 =>
    rw [← hlsc]
    right
    have hlsne : cleanLines (cbScan (collapseSpaces (removeCtl l))) ≠ [] := by
      rw [hlsc]; simp
    have hchainT3 : List.Chain' RSp (cbScan (collapseSpaces (removeCtl l))) :=
      chainRSpCbScanF (chainRSpCollapse _)
    refine ⟨?_, ?_, ?_, ?_, hstrip⟩
    · -- no control characters
      intro c hc
      rcases memJoin hc with ⟨x, hx, hcx⟩ | rfl
      · unfold cleanLines at hx
        have h1 := List.mem_filter.mp hx
        obtain ⟨y, hy, rfl⟩ := List.mem_map.mp h1.1
        have h2 : c ∈ cbScan (collapseSpaces (removeCtl l)) :=
          memSplitNl hy (memStripChars hcx)
        rcases memCbScanF h2 with h3 | rfl
        · have h4 := memCollapse h3
          have h5 := List.mem_filter.mp h4
          simpa using h5.2
        · decide
      · decide
    · -- no double spaces
      apply joinChain
      · intro x _ c _
        intro hcontra
        exact absurd hcontra.2 (by decide)
      · intro x _ c _
        intro hcontra
        exact absurd hcontra.1 (by decide)
      · intro x hx
        unfold cleanLines at hx
        have h1 := List.mem_filter.mp hx
        obtain ⟨y, hy, rfl⟩ := List.mem_map.mp h1.1
        exact stripCharsChain (chainSplitNl hchainT3 hy)
      · intro x hx
        exact (hgood x hx).1
    · -- newline never followed by whitespace
      apply joinChain
      · intro x hx c hcm
        intro hceq
        exact absurd (hceq ▸ memOfGetLast hcm) (hgood x hx).2.2
      · intro x hx c hcm
        intro _
        exact stripCharsHead (hgood x hx).2.1 c hcm
      · intro x hx
        exact chainRNlOfNoNl (hgood x hx).2.2
      · intro x hx
        exact (hgood x hx).1
    · -- lines of the result are exactly the cleaned lines
      rw [splitJoin hlsne (fun x hx => (hgood x hx).2.2)]
      exact hgood

theorem cleanFixedId {m : List Char} (h : CleanFixed m) : cleanText m = m := by
  rcases h with rfl | ⟨hctl, hsp, hnl, hgood, hstrip⟩
  · rfl
  by_cases hm : m = []
  · subst hm; rfl
  unfold cleanText
  rw [if_neg hm]
  rw [show removeCtl m = m from
    List.filter_eq_self.mpr (fun c hc => by simp [hctl c hc])]
  rw [collapseEqSelf hsp]
  rw [show cbScan m = m from cbScanFId hnl]
  rw [show cleanLines m = splitNl m by
    unfold cleanLines
    rw [mapEqSelf (fun x hx => (hgood x hx).2.1)]
    exact List.filter_eq_self.mpr (fun x hx => by simp [(hgood x hx).1])]
  rw [joinSplit]
  exact hstrip

/-- C5: the text normalizer `_clean_text_improved` is idempotent: normalizing
an already-normalized text changes nothing, for every input string. -/
theorem cleanTextIdempotent (l : List Char) :
    cleanText (cleanText l) = cleanText l :=
  cleanFixedId (cleanFixedOutput l)

/-! ### Regex character classes and position scanners -/

/-- Regex class `[A-Z]`. -/
def isUpperCh (c : Char) : Bool := 'A' ≤ c && c ≤ 'Z'

/-- Regex class `[a-z]`. -/
def isLowerCh (c : Char) : Bool := 'a' ≤ c && c ≤ 'z'

/-- Regex class `\d` (ASCII). -/
def isDigitCh (c : Char) : Bool := '0' ≤ c && c ≤ '9'

/-- Regex class `\w` (ASCII). -/
def isWordCh (c : Char) : Bool := isUpperCh c || isLowerCh c || isDigitCh c || c = '_'

/-- ASCII case folding used to model `re.IGNORECASE` / `str.lower`. -/
def lowerCh (c : Char) : Char := c.toLower

def lowerList (l : List Char) : List Char := l.map lowerCh

/-- Wordness of the character preceding the scan position (`none` at the start
of the text behaves as a non-word character for `\b`). -/
def wordOpt : Option Char → Bool
  | some c => isWordCh c
  | none => false

/-- Wordness of the character at the head of the remaining text (end of text
behaves as a non-word character for `\b`). -/
def wordHead : List Char → Bool
  | [] => false
  | c :: _ => isWordCh c

/-- Strip a literal prefix, case-insensitively; `some rest` on success. -/
def startsWithCI : List Char → List Char → Option (List Char)
  | [], l => some l
  | _ :: _, [] => none
  | a :: lits, c :: l => if lowerCh c = lowerCh a then startsWithCI lits l else none

/-- Strip a literal prefix, case-sensitively. -/
def startsWithCS : List Char → List Char → Option (List Char)
  | [], l => some l
  | _ :: _, [] => none
  | a :: lits, c :: l => if c = a then startsWithCS lits l else none

/-- Models the `re.search` position scan for a Boolean matcher that needs the previous
character (for `\b`): try every start position, left to right. -/
def scanB (p : Option Char → List Char → Bool) : Option Char → List Char → Bool
  | prev, [] => p prev []
  | prev, c :: t => p prev (c :: t) || scanB p (some c) t

/-- Models the `re.search` position scan for a value-producing matcher with previous
character context: leftmost successful position wins. -/
def scanPrev (p : Option Char → List Char → Option (List Char)) :
    Option Char → List Char → Option (List Char)
  | prev, [] => p prev []
  | prev, c :: t =>
    match p prev (c :: t) with
    | some v => some v
    | none => scanPrev p (some c) t

/-- Models the `re.search` position scan for a matcher that does not look at `\b`. -/
def scanF (p : List Char → Option (List Char)) : List Char → Option (List Char)
  | [] => p []
  | c :: t =>
    match p (c :: t) with
    | some v => some v
    | none => scanF p t

/-- First index at which `needle` occurs in `hay` (Python `str.find`). -/
def indexOfSubGo (needle : List Char) : Nat → List Char → Option Nat
  | i, l =>
    if needle.isPrefixOf l then some i
    else
      match l with
      | [] => none
      | _ :: t => indexOfSubGo needle (i + 1) t

def indexOfSub (hay needle : List Char) : Option Nat := indexOfSubGo needle 0 hay

/-- Python `needle in hay` for strings. -/
def containsSub (needle hay : List Char) : Bool := (indexOfSub hay needle).isSome

/-- Case-insensitive substring test: `kw.lower() in line.lower()`. -/
def containsCI (kw line : List Char) : Bool :=
  containsSub (lowerList kw) (lowerList line)

/-! ### The `(?:ALT1|ALT2|…)[:\s]*(CLASS+)` label matchers

Several source patterns share this shape (`skills`, `languages`,
`certifications`, `hobbies`, `address`, labeled phone).  An alternative is a
token sequence: literals (matched with `re.IGNORECASE`) and greedy optional
single characters (`s?`).  After the alternative, `[:\s]*` is matched greedily
with backtracking against the group `(CLASS+)`, which must capture at least one
character; the group is the leftmost-greedy `group(1)` of `re.search`. -/

inductive Tok where
  | lit : List Char → Tok
  | opt : Char → Tok
deriving DecidableEq

/-- Backtracking for `[:\s]*(CLASS+)`: the reversed colon/whitespace run is
peeled back (longest first) until the group can capture at least one
character. -/
def colonWsGo (cls : Char → Bool) : List Char → List Char → Option (List Char)
  | [], rest =>
    if rest.takeWhile cls = [] then none else some (rest.takeWhile cls)
  | c :: wr, rest =>
    if rest.takeWhile cls = [] then colonWsGo cls wr (c :: rest)
    else some (rest.takeWhile cls)

def isColonWs (c : Char) : Bool := c = ':' || pyIsSpace c

/-- Matches `[:\s]*(CLASS+)` after a matched alternative. -/
def colonWsTail (cls : Char → Bool) (l : List Char) : Option (List Char) :=
  colonWsGo cls (l.takeWhile isColonWs).reverse (l.dropWhile isColonWs)

/-- Match one alternative (token sequence) then the `[:\s]*(CLASS+)` tail,
with the optional characters tried greedily (present first) and backtracked
against the rest of the pattern. -/
def matchToks (cls : Char → Bool) : List Tok → List Char → Option (List Char)
  | [], l => colonWsTail cls l
  | Tok.lit s :: ts, l =>
    match startsWithCI s l with
    | some r => matchToks cls ts r
    | none => none
  | Tok.opt c :: ts, l =>
    match l with
    | [] => matchToks cls ts []
    | x :: xs =>
      if lowerCh x = lowerCh c then
        match matchToks cls ts xs with
        | some v => some v
        | none => matchToks cls ts (x :: xs)
      else matchToks cls ts (x :: xs)

/-- Try the alternatives of the alternation, in source order. -/
def tryAlts (cls : Char → Bool) : List (List Tok) → List Char → Option (List Char)
  | [], _ => none
  | a :: rest, l =>
    match matchToks cls a l with
    | some v => some v
    | none => tryAlts cls rest l

/-- Models `re.search` for a label pattern: leftmost position, alternatives in
order. -/
def searchLabel (cls : Char → Bool) (alts : List (List Tok)) : List Char → Option (List Char)
  | [] => tryAlts cls alts []
  | c :: t =>
    match tryAlts cls alts (c :: t) with
    | some v => some v
    | none => searchLabel cls alts t

/-- Group class `[^.\n]` of the label patterns. -/
def nonDotNl (c : Char) : Bool := !(c = '.' || c = '\n')

/-- Embeds `re.split(r'[,;]', l)` (keeps empty pieces, like the Python call). -/
def splitPunct : List Char → List (List Char)
  | [] => [[]]
  | c :: t =>
    if c = ',' || c = ';' then [] :: splitPunct t
    else
      match splitPunct t with
      | [] => [[c]]
      | h :: rest => (c :: h) :: rest

/-- Embeds `[x.strip() for x in re.split(r'[,;]', g) if x.strip()]`. -/
def splitCleaned (g : List Char) : List (List Char) :=
  ((splitPunct g).map stripChars).filter (fun s => s ≠ [])

example : searchLabel nonDotNl [[Tok.lit (str "Skill"), Tok.opt 's']] (str "Skills: .") = some (str " ") := by decide
example : searchLabel nonDotNl [[Tok.lit (str "Skill"), Tok.opt 's']] (str "Skillsabc") = some (str "abc") := by decide
example : searchLabel nonDotNl [[Tok.lit (str "Skill"), Tok.opt 's']] (str "xSkills:\n java") = some (str "java") := by decide
example : splitCleaned (str "java, java") = [str "java", str "java"] := by decide

/-! ### Email pattern `\b[A-Za-z0-9._%+-]+@[A-Za-z0-9.-]+\.[A-Z|a-z]{2,}\b` -/

def isLocalCh (c : Char) : Bool :=
  isUpperCh c || isLowerCh c || isDigitCh c ||
  c = '.' || c = '_' || c = '%' || c = '+' || c = '-'

def isDomCh (c : Char) : Bool :=
  isUpperCh c || isLowerCh c || isDigitCh c || c = '.' || c = '-'

/-- Class `[A-Z|a-z]` (the `|` inside the class is literal). -/
def isTldCh (c : Char) : Bool := isUpperCh c || isLowerCh c || c = '|'

/-- Greedy `[A-Z|a-z]{2,}\b`: longest length `m ≥ 2` whose end sits on a word
boundary; the reversed candidate run is peeled back longest-first. -/
def tldGreedyGo : List Char → List Char → Option Nat
  | [], _ => none
  | c :: runRev, after =>
    if (isWordCh c != wordHead after) && 2 ≤ runRev.length + 1 then some (runRev.length + 1)
    else tldGreedyGo runRev (c :: after)

def tldGreedy (l : List Char) : Option Nat :=
  tldGreedyGo (l.takeWhile isTldCh).reverse (l.dropWhile isTldCh)

/-- Greedy `[A-Za-z0-9.-]+\.[A-Z|a-z]{2,}\b` after the `@`: the reversed
maximal domain run is peeled back to find the latest literal `.` (preceded by
at least one domain character) followed by a valid TLD. -/
def domGreedyGo : List Char → List Char → Option (List Char)
  | [], _ => none
  | c :: rRev, after =>
    if c = '.' && rRev ≠ [] then
      match tldGreedy after with
      | some m => some (rRev.reverse ++ '.' :: after.take m)
      | none => domGreedyGo rRev (c :: after)
    else domGreedyGo rRev (c :: after)

/-- Email match attempt at one position: `\b`, then the maximal local-part run
(the `@` cannot occur inside it, so the run is forced), `@`, then the greedy
domain/TLD decomposition.  Returns the matched text. -/
def emailValAt (prev : Option Char) : List Char → Option (List Char)
  | [] => none
  | c :: t =>
    if isLocalCh c && (wordOpt prev != isWordCh c) then
      match (c :: t).dropWhile isLocalCh with
      | '@' :: rest =>
        match domGreedyGo (rest.takeWhile isDomCh).reverse (rest.dropWhile isDomCh) with
        | some dom => some ((c :: t).takeWhile isLocalCh ++ '@' :: dom)
        | none => none
      | _ => none
    else none

/-- Embeds `re.search(self.patterns['email'], text)`: leftmost-greedy match value. -/
def emailSearch (text : List Char) : Option (List Char) := scanPrev emailValAt none text

example : emailSearch (str "mail a@b.io here") = some (str "a@b.io") := by decide
example : emailSearch (str "x a@b.co|x y") = some (str "a@b.co|x") := by decide
example : emailSearch (str "nope@x") = none := by decide

/-! ### Phone patterns -/

/-- Tail `[\s\-]?[0-9]{8,10}` of the confidence-score phone pattern
`(\+237|237|\+33|0)[\s\-]?[0-9]{8,10}`: at least 8 digits follow, with an
optional single separator. -/
def phoneTailOk (l : List Char) : Bool :=
  8 ≤ (l.takeWhile isDigitCh).length ||
  (match l with
   | c :: t => (pyIsSpace c || c = '-') && 8 ≤ (t.takeWhile isDigitCh).length
   | [] => false)

def phoneConfAt (_prev : Option Char) (l : List Char) : Bool :=
  (match startsWithCS (str "+237") l with | some r => phoneTailOk r | none => false) ||
  (match startsWithCS (str "237") l with | some r => phoneTailOk r | none => false) ||
  (match startsWithCS (str "+33") l with | some r => phoneTailOk r | none => false) ||
  (match startsWithCS (str "0") l with | some r => phoneTailOk r | none => false)

/-- Embeds `re.search(self.patterns['phone'], text)` (truth value only). -/
def phonePatFound (text : List Char) : Bool := scanB phoneConfAt none text

/-- A contact phone pattern `(LIT\s*[0-9]{lo,hi})`: literal, greedy whitespace,
then `lo ≤ · ≤ hi` digits (greedy). -/
def litWsDigits (lit : List Char) (lo hi : Nat) (l : List Char) : Option (List Char) :=
  match startsWithCS lit l with
  | some r =>
    if lo ≤ ((r.dropWhile pyIsSpace).takeWhile isDigitCh).length then
      some (lit ++ r.takeWhile pyIsSpace ++
        ((r.dropWhile pyIsSpace).takeWhile isDigitCh).take hi)
    else none
  | none => none

/-- Contact phone pattern `(0[0-9]{9})`. -/
def zeroNine (l : List Char) : Option (List Char) :=
  match l with
  | '0' :: t =>
    if 9 ≤ (t.takeWhile isDigitCh).length then some ('0' :: (t.takeWhile isDigitCh).take 9)
    else none
  | _ => none

/-- Group class `[0-9+\s\-]` of the labeled phone patterns. -/
def phoneCls (c : Char) : Bool := isDigitCh c || c = '+' || pyIsSpace c || c = '-'

/-- One step of the `_extract_contact_info` phone loop: accept the matched
group if its stripped form has length ≥ 8, otherwise try the next pattern. -/
def phoneStep (m : Option (List Char)) (next : Option (List Char)) : Option (List Char) :=
  match m with
  | some v => if 8 ≤ (stripChars v).length then some (stripChars v) else next
  | none => next

/-- The phone extraction of `_extract_contact_info`: the six patterns in
source order, first sufficiently long match wins. -/
def extractPhone (text : List Char) : Option (List Char) :=
  phoneStep (scanF (litWsDigits (str "+237") 8 9) text)
    (phoneStep (scanF (litWsDigits (str "237") 8 9) text)
      (phoneStep (scanF (litWsDigits (str "+33") 9 10) text)
        (phoneStep (scanF zeroNine text)
          (phoneStep (searchLabel phoneCls [[Tok.lit (str "Phone")]] text)
            (phoneStep (searchLabel phoneCls [[Tok.lit (str "Téléphone")]] text) none)))))

example : extractPhone (str "Phone: 12") = none := by decide
example : extractPhone (str "tel +237 699112233 x") = some (str "+237 699112233") := by decide

/-! ### Word-boundary keyword searches -/

/-- Matches `\bKW\b` at one position (literal keyword, `re.IGNORECASE`); the boundary
conditions depend on the wordness of the keyword's first and last character. -/
def wbLitAt (kw : List Char) (prev : Option Char) (l : List Char) : Bool :=
  match kw.head?, kw.getLast? with
  | some k0, some k1 =>
    (match startsWithCI kw l with
     | some rest => (wordOpt prev != isWordCh k0) && (isWordCh k1 != wordHead rest)
     | none => false)
  | _, _ => false

/-- Embeds `re.search(rf'\b{kw}\b', text, re.IGNORECASE)` for a literal keyword. -/
def wbSearchCI (kw text : List Char) : Bool := scanB (wbLitAt kw) none text

/-- Matches `\bnode.js\b`: the `.` of the spliced keyword `node.js` is an unescaped
regex wildcard (any character but newline). -/
def nodeJsAt (prev : Option Char) (l : List Char) : Bool :=
  match startsWithCI (str "node") l with
  | some (c :: rest) =>
    c ≠ '\n' &&
      (match startsWithCI (str "js") rest with
       | some rest2 => !wordOpt prev && !wordHead rest2
       | none => false)
  | _ => false

/-- Matches `\bc++\b`: under CPython ≥ 3.11 `c++` parses as a possessive repetition,
so this matches a maximal run of `c`/`C` flanked by word boundaries. -/
def cPlusPlusAt (prev : Option Char) (l : List Char) : Bool :=
  l.takeWhile (fun c => lowerCh c = 'c') ≠ [] && !wordOpt prev &&
    !wordHead (l.dropWhile (fun c => lowerCh c = 'c'))

/-- Case-sensitive `\bKW\b` (used by the confidence score). -/
def wbLitCSAt (kw : List Char) (prev : Option Char) (l : List Char) : Bool :=
  match startsWithCS kw l with
  | some rest => !wordOpt prev && !wordHead rest
  | none => false

/-- Matches `\bBASEs?\b`, case-sensitive, for a base ending in a word character: the
greedy optional `s` is tried first; the `s`-less backtrack can only succeed if
the next character is a non-word character, which the leading `s` refutes. -/
def optSAt (base : List Char) (prev : Option Char) (l : List Char) : Bool :=
  !wordOpt prev &&
    (match startsWithCS base l with
     | some r =>
       (match r with
        | 's' :: r2 => !wordHead r2 || !wordHead r
        | _ => !wordHead r)
     | none => false)

/-- Embeds `re.search(r'\b(?:Compétences?|Skills?)\b', text)` (case-sensitive). -/
def skillsKwFound (text : List Char) : Bool :=
  scanB (fun p l => optSAt (str "Compétence") p l || optSAt (str "Skill") p l) none text

/-- Embeds `re.search(r'\b(?:Education|Formation)\b', text)` (case-sensitive). -/
def eduKwFound (text : List Char) : Bool :=
  scanB (fun p l => wbLitCSAt (str "Education") p l || wbLitCSAt (str "Formation") p l) none text

/-- Matches `\b\d{4}\b` at one position. -/
def yearAt (prev : Option Char) (l : List Char) : Bool :=
  match l with
  | a :: b :: c :: d :: rest =>
    !wordOpt prev && isDigitCh a && isDigitCh b && isDigitCh c && isDigitCh d && !wordHead rest
  | _ => false

/-- Embeds `re.search(r'\b\d{4}\b', text)`. -/
def yearTokenFound (text : List Char) : Bool := scanB yearAt none text

/-- Embeds `re.search(r'\d{4}', line)`: four consecutive digits anywhere. -/
def hasFourDigits : List Char → Bool
  | a :: t =>
    (match t with
     | b :: c :: d :: _ => isDigitCh a && isDigitCh b && isDigitCh c && isDigitCh d
     | _ => false) || hasFourDigits t
  | [] => false

example : yearTokenFound (str "in 2019.") = true := by decide
example : yearTokenFound (str "12345") = false := by decide
example : wbSearchCI (str "c#") (str "use c# here") = false := by decide
example : wbSearchCI (str "c#") (str "c#x") = true := by decide
example : scanB cPlusPlusAt none (str "ccx") = false := by decide
example : scanB cPlusPlusAt none (str "mac") = false := by decide
example : scanB cPlusPlusAt none (str "c++") = true := by decide

/-! ### Confidence score (`_calculate_confidence_score`)

Python floats are modelled by exact rationals (the usual idealization: the
binary floating-point sums differ from the decimal values by ≤ 2⁻⁵⁰, e.g.
`0.2+0.15+0.15+0.1+0.1+0.1` is `0.7999…` in floats).  The [0,1] bounds and
the additive structure are unaffected by this idealization. -/

def calcConfidence (text : List Char) : ℚ :=
  let s0 : ℚ := 0
  let s1 := if 500 < text.length then s0 + 2/10 else s0
  let s2 := if 1000 < text.length then s1 + 2/10 else s1
  let s3 := if (emailSearch text).isSome then s2 + 15/100 else s2
  let s4 := if phonePatFound text then s3 + 15/100 else s3
  let s5 := if yearTokenFound text then s4 + 1/10 else s4
  let s6 := if skillsKwFound text then s5 + 1/10 else s5
  let s7 := if eduKwFound text then s6 + 1/10 else s6
  min s7 1

/-! ### Name patterns of `_extract_personal_info` -/

/-- One repetition `\s+[A-Z][a-z]+` (the character classes of consecutive
atoms are disjoint, so greedy matching is deterministic): returns the consumed
text and the rest. -/
def repWord (l : List Char) : Option (List Char × List Char) :=
  if l.takeWhile pyIsSpace = [] then none
  else
    match l.dropWhile pyIsSpace with
    | c :: t =>
      if isUpperCh c then
        if t.takeWhile isLowerCh = [] then none
        else some (l.takeWhile pyIsSpace ++ c :: t.takeWhile isLowerCh,
          t.drop (t.takeWhile isLowerCh).length)
      else none
    | [] => none

/-- Pattern (a) `([A-Z][a-z]+(?:\s+[A-Z][a-z]+){1,3})` at one position:
an initial capitalized word then 1 to 3 further capitalized words, greedily. -/
def nameAAt : List Char → Option (List Char)
  | [] => none
  | c :: t =>
    if isUpperCh c then
      if t.takeWhile isLowerCh = [] then none
      else
        match repWord (t.drop (t.takeWhile isLowerCh).length) with
        | none => none
        | some (w1, r1) =>
          match repWord r1 with
          | none => some (c :: t.takeWhile isLowerCh ++ w1)
          | some (w2, r2) =>
            match repWord r2 with
            | none => some (c :: t.takeWhile isLowerCh ++ w1 ++ w2)
            | some (w3, _) => some (c :: t.takeWhile isLowerCh ++ w1 ++ w2 ++ w3)
    else none

/-- Pattern (b) `([A-Z][A-Z\s]+[A-Z])` at one position: the greedy inner run
backtracks to the last uppercase letter of the maximal `[A-Z\s]` run, which
must leave an inner part of length ≥ 1. -/
def nameBAt : List Char → Option (List Char)
  | [] => none
  | c :: t =>
    if isUpperCh c then
      if 2 ≤ (((t.takeWhile (fun x => isUpperCh x || pyIsSpace x)).reverse.dropWhile
          (fun x => !isUpperCh x)).reverse).length then
        some (c :: ((t.takeWhile (fun x => isUpperCh x || pyIsSpace x)).reverse.dropWhile
          (fun x => !isUpperCh x)).reverse)
      else none
    else none

/-- Pattern (c) `(?:Je m\'appelle|I am|Name)[:\s]*([A-Z][a-z]+(?:\s+[A-Z][a-z]+){1,3})`
at one position; the `[:\s]*` cannot trade characters with `[A-Z]`, so after a
literal the group is matched after the maximal colon/whitespace run. -/
def nameCAt (l : List Char) : Option (List Char) :=
  (match startsWithCS (str "Je m'appelle") l with
   | some r => nameAAt (r.dropWhile isColonWs)
   | none => none) <|>
  (match startsWithCS (str "I am") l with
   | some r => nameAAt (r.dropWhile isColonWs)
   | none => none) <|>
  (match startsWithCS (str "Name") l with
   | some r => nameAAt (r.dropWhile isColonWs)
   | none => none)

/-- Pattern (d) `([A-Z][a-z]+\s+[A-Z][a-z]+\s+[A-Z][a-z]+)` at one position. -/
def nameDAt : List Char → Option (List Char)
  | [] => none
  | c :: t =>
    if isUpperCh c then
      if t.takeWhile isLowerCh = [] then none
      else
        match repWord (t.drop (t.takeWhile isLowerCh).length) with
        | none => none
        | some (w1, r1) =>
          match repWord r1 with
          | none => none
          | some (w2, _) => some (c :: t.takeWhile isLowerCh ++ w1 ++ w2)
    else none

/-- The qualification test of the name loop:
`len(name) > 3 and not re.search(r'\d', name)`. -/
def nameQualifies (name : List Char) : Bool := 3 < name.length && !name.any isDigitCh

/-- One iteration of the pattern loop: take the first match of the pattern,
strip it, and accept it only if it qualifies (otherwise the loop moves on to
the next pattern without reconsidering this one). -/
def acceptName (m : Option (List Char)) : Option (List Char) :=
  match m with
  | some name => if nameQualifies (stripChars name) then some (stripChars name) else none
  | none => none

/-- The first-5-lines fallback of `_extract_personal_info`. -/
def nameFallback (text : List Char) : Option (List Char) :=
  (((splitNl text).take 5).map stripChars).find?
    (fun l => l ≠ [] && 5 < l.length && !l.any isDigitCh &&
      !l.contains '@' && !l.contains '+')

/-- Embeds `_extract_personal_info`: the four name patterns in priority order, then
the header-line fallback; `none` models the absent `full_name` key. -/
def extractPersonalInfo (text : List Char) : Option (List Char) :=
  match acceptName (scanF nameAAt text) with
  | some n => some n
  | none =>
    match acceptName (scanF nameBAt text) with
    | some n => some n
    | none =>
      match acceptName (scanF nameCAt text) with
      | some n => some n
      | none =>
        match acceptName (scanF nameDAt text) with
        | some n => some n
        | none => nameFallback text

example : extractPersonalInfo (str "Jean Dupont\njd@x.io") = some (str "Jean Dupont") := by decide
example : extractPersonalInfo (str "abcdef1") = none := by decide
example : scanF nameBAt (str "xx AB\nCD yy") = some (str "AB\nCD") := by decide
example : scanF nameAAt (str "Abc Def Ghi Jkl Mno") = some (str "Abc Def Ghi Jkl") := by decide

/-! ### Contact info, address, summary -/

structure ContactInfo where
  email : Option (List Char)
  phone : Option (List Char)
  linkedin : Option (List Char)
  github : Option (List Char)
  website : Option (List Char)
deriving DecidableEq

/-- Class `[\w\-%]` of the LinkedIn pattern. -/
def linkClass (c : Char) : Bool := isWordCh c || c = '-' || c = '%'

/-- Class `[\w\-]` of the GitHub pattern. -/
def ghClass (c : Char) : Bool := isWordCh c || c = '-'

/-- Literal core plus a non-empty greedy class run. -/
def urlCore (lit : List Char) (cls : Char → Bool) (l : List Char) : Option (List Char) :=
  match startsWithCS lit l with
  | some r => if r.takeWhile cls = [] then none else some (lit ++ r.takeWhile cls)
  | none => none

/-- Matches `(?:www\.)?CORE`, greedy (with `www.` first). -/
def wwwOpt (lit : List Char) (cls : Char → Bool) (l : List Char) : Option (List Char) :=
  (match startsWithCS (str "www.") l with
   | some r => (urlCore lit cls r).map (fun v => str "www." ++ v)
   | none => none) <|> urlCore lit cls l

/-- Matches `(?:https?://)?(?:www\.)?CORE`, greedy (`https` before `http` before no
scheme). -/
def schemeOptM (lit : List Char) (cls : Char → Bool) (l : List Char) : Option (List Char) :=
  (match startsWithCS (str "https://") l with
   | some r => (wwwOpt lit cls r).map (fun v => str "https://" ++ v)
   | none => none) <|>
  (match startsWithCS (str "http://") l with
   | some r => (wwwOpt lit cls r).map (fun v => str "http://" ++ v)
   | none => none) <|>
  wwwOpt lit cls l

/-- Class `[^\s<>"]` of the website pattern. -/
def webClass (c : Char) : Bool := !(pyIsSpace c || c = '<' || c = '>' || c = '"')

/-- Matches `https?://(?:www\.)?[^\s<>"]+|www\.[^\s<>"]+` at one position.  After a
scheme the optional `www.` and the class run produce the same total match, so
the value is the scheme plus the maximal class run (which must be non-empty). -/
def websiteAt (l : List Char) : Option (List Char) :=
  (match startsWithCS (str "https://") l with
   | some r => if r.takeWhile webClass = [] then none else some (str "https://" ++ r.takeWhile webClass)
   | none => none) <|>
  (match startsWithCS (str "http://") l with
   | some r => if r.takeWhile webClass = [] then none else some (str "http://" ++ r.takeWhile webClass)
   | none => none) <|>
  (match startsWithCS (str "www.") l with
   | some r => if r.takeWhile webClass = [] then none else some (str "www." ++ r.takeWhile webClass)
   | none => none)

/-- Embeds `_extract_contact_info`: each field is the first match of its pattern,
independently; the phone loop keeps the first stripped group of length ≥ 8. -/
def extractContactInfo (text : List Char) : ContactInfo where
  email := emailSearch text
  phone := extractPhone text
  linkedin := scanF (schemeOptM (str "linkedin.com/in/") linkClass) text
  github := scanF (schemeOptM (str "github.com/") ghClass) text
  website := scanF websiteAt text

/-- Address pattern 2 `(?:Yassa|Douala|Littoral)[^.\n]*` at one position: the
pattern has no group, so the value is the whole match (the matched text, which
may differ in case from the literal). -/
def addrKwAt (kw : List Char) (l : List Char) : Option (List Char) :=
  match startsWithCI kw l with
  | some rest => some (l.take kw.length ++ rest.takeWhile nonDotNl)
  | none => none

def addr2At (l : List Char) : Option (List Char) :=
  addrKwAt (str "Yassa") l <|> addrKwAt (str "Douala") l <|> addrKwAt (str "Littoral") l

/-- One address pattern attempt: accept the (stripped) value only when longer
than 5 characters, else fall through to the next pattern. -/
def addrStep (m : Option (List Char)) (next : List Char) : List Char :=
  match m with
  | some a => if 5 < (stripChars a).length then stripChars a else next
  | none => next

def addressAlts1 : List (List Tok) :=
  [[Tok.lit (str "Adresse"), Tok.opt 's'], [Tok.lit (str "Address")], [Tok.lit (str "Adresse")]]

def addressAlts3 : List (List Tok) := [[Tok.lit (str "Ville")], [Tok.lit (str "City")]]

def locationKeywords : List (List Char) :=
  [str "Yassa", str "Douala", str "Littoral", str "Cameroun", str "Cameroon"]

/-- The ±50-character window fallback of `_extract_address`. -/
def addrContext (text : List Char) : List (List Char) → List Char
  | [] => []
  | kw :: rest =>
    match indexOfSub (lowerList text) (lowerList kw) with
    | some idx =>
      if (text.take (min text.length (idx + 50))).drop (idx - 50) = [] then addrContext text rest
      else stripChars ((text.take (min text.length (idx + 50))).drop (idx - 50))
    | none => addrContext text rest

/-- Embeds `_extract_address`: three labeled/location patterns then the keyword
proximity fallback; empty string when nothing matches. -/
def extractAddress (text : List Char) : List Char :=
  addrStep (searchLabel nonDotNl addressAlts1 text)
    (addrStep (scanF addr2At text)
      (addrStep (searchLabel nonDotNl addressAlts3 text)
        (addrContext text locationKeywords)))

example : extractAddress (str "I live in Douala, Cameroon. ok") = str "Douala, Cameroon" := by decide

/-- Python `' '.join`. -/
def joinSpace : List (List Char) → List Char
  | [] => []
  | [x] => x
  | x :: xs => x ++ ' ' :: joinSpace xs

def summaryKeywords : List (List Char) :=
  [str "résumé", str "summary", str "profil", str "profile", str "objectif",
   str "objective", str "ambitious", str "determined", str "hardworking"]

/-- The line scan of `_extract_professional_summary`: on the first line whose
lowercase form contains a keyword, collect up to 3 of the next 5 lines whose
stripped form is longer than 10 characters; if none qualify, keep scanning. -/
def summaryScan : List (List Char) → List Char
  | [] => []
  | line :: rest =>
    if summaryKeywords.any (fun kw => containsSub kw (lowerList line)) then
      if (((rest.take 5).map stripChars).filter (fun l => l ≠ [] && 10 < l.length)).take 3 = [] then
        summaryScan rest
      else joinSpace ((((rest.take 5).map stripChars).filter (fun l => l ≠ [] && 10 < l.length)).take 3)
    else summaryScan rest

def extractSummary (text : List Char) : List Char := summaryScan (splitNl text)

/-! ### Work experience and education state machines -/

structure ExpEntry where
  title : List Char
  company : List Char
  period : List Char
  description : List (List Char)
deriving DecidableEq

structure EduEntry where
  degree : List Char
  institution : List Char
  year : List Char
  description : List (List Char)
deriving DecidableEq

def expKeywords : List (List Char) :=
  [str "intern", str "stagiaire", str "développeur", str "developer", str "mobile developer"]

def expCompanyLits : List (List Char) :=
  [str "COM.INFO", str "Devsec", str "PRODITECH", str "ENSPD"]

/-- Start-of-experience test: a job keyword occurs in the lowercased line, or
`\b(?:COM\.INFO|Devsec|PRODITECH|ENSPD)\b` matches the line (IGNORECASE). -/
def expStartLine (line : List Char) : Bool :=
  expKeywords.any (fun kw => containsSub kw (lowerList line)) ||
  expCompanyLits.any (fun kw => wbSearchCI kw line)

/-- Populate the first unfilled slot of the current experience entry:
company (if the stripped line is shorter than 100), then period (if the line
contains four consecutive digits), else description. -/
def expUpdate (e : ExpEntry) (line : List Char) : ExpEntry :=
  if e.company = [] && (stripChars line).length < 100 then { e with company := stripChars line }
  else if e.period = [] && hasFourDigits line then { e with period := stripChars line }
  else { e with description := e.description ++ [stripChars line] }

/-- One line of the `_extract_work_experience` loop. -/
def expStep : Option ExpEntry × List ExpEntry → List Char → Option ExpEntry × List ExpEntry
  | (cur, acc), line =>
    if expStartLine line then
      match cur with
      | some e =>
        if e.title ≠ [] then (some ⟨stripChars line, [], [], []⟩, acc ++ [e])
        else (some ⟨stripChars line, [], [], []⟩, acc)
      | none => (some ⟨stripChars line, [], [], []⟩, acc)
    else
      match cur with
      | some e => if stripChars line ≠ [] then (some (expUpdate e line), acc) else (cur, acc)
      | none => (cur, acc)

/-- Embeds `_extract_work_experience`: single pass over the lines, flushing the
pending entry (when its title is non-empty) on each new start line and at the
end. -/
def extractWorkExperience (text : List Char) : List ExpEntry :=
  match (splitNl text).foldl expStep (none, []) with
  | (some e, acc) => if e.title ≠ [] then acc ++ [e] else acc
  | (none, acc) => acc

def eduMarkers : List (List Char) :=
  [str "National Higher Polytechnic School of Douala",
   str "LYCEE DE LA CITE DES PALMIERS",
   str "Baccalaureat", str "Bachelor", str "Master", str "PhD"]

/-- Start-of-education test: any of the three patterns
`(?:LIT…)[^.\n]*` matches the line with IGNORECASE, i.e. one of the literals
occurs case-insensitively in the line. -/
def eduStartLine (line : List Char) : Bool :=
  eduMarkers.any (fun kw => containsCI kw line)

def eduUpdate (e : EduEntry) (line : List Char) : EduEntry :=
  if e.institution = [] && (stripChars line).length < 100 then
    { e with institution := stripChars line }
  else if e.year = [] && hasFourDigits line then { e with year := stripChars line }
  else { e with description := e.description ++ [stripChars line] }

/-- One line of the `_extract_education` loop. -/
def eduStep : Option EduEntry × List EduEntry → List Char → Option EduEntry × List EduEntry
  | (cur, acc), line =>
    if eduStartLine line then
      match cur with
      | some e =>
        if e.degree ≠ [] then (some ⟨stripChars line, [], [], []⟩, acc ++ [e])
        else (some ⟨stripChars line, [], [], []⟩, acc)
      | none => (some ⟨stripChars line, [], [], []⟩, acc)
    else
      match cur with
      | some e => if stripChars line ≠ [] then (some (eduUpdate e line), acc) else (cur, acc)
      | none => (cur, acc)

/-- Embeds `_extract_education`: same single-pass state machine as the experience
extractor, keyed on education markers. -/
def extractEducation (text : List Char) : List EduEntry :=
  match (splitNl text).foldl eduStep (none, []) with
  | (some e, acc) => if e.degree ≠ [] then acc ++ [e] else acc
  | (none, acc) => acc

/-! ### Skills, languages, certifications, projects, hobbies -/

def skillsAlts : List (List Tok) :=
  [[Tok.lit (str "Compétence"), Tok.opt 's'], [Tok.lit (str "Skill"), Tok.opt 's'],
   [Tok.lit (str "Technologie"), Tok.opt 's'], [Tok.lit (str "Technologie"), Tok.opt 's'],
   [Tok.lit (str "Outil"), Tok.opt 's'], [Tok.lit (str "Tool"), Tok.opt 's']]

/-- The fixed technical vocabulary of `_extract_skills`, paired with the
matcher for the spliced pattern `rf'\b{keyword}\b'` (IGNORECASE); `node.js`
and `c++` splice into non-literal regexes, all other entries are literal. -/
def technicalKeywordMatchers : List (List Char × (List Char → Bool)) :=
  [(str "python", wbSearchCI (str "python")), (str "java", wbSearchCI (str "java")),
   (str "javascript", wbSearchCI (str "javascript")), (str "react", wbSearchCI (str "react")),
   (str "angular", wbSearchCI (str "angular")), (str "vue", wbSearchCI (str "vue")),
   (str "node.js", fun t => scanB nodeJsAt none t), (str "sql", wbSearchCI (str "sql")),
   (str "mongodb", wbSearchCI (str "mongodb")), (str "docker", wbSearchCI (str "docker")),
   (str "kubernetes", wbSearchCI (str "kubernetes")), (str "aws", wbSearchCI (str "aws")),
   (str "azure", wbSearchCI (str "azure")), (str "git", wbSearchCI (str "git")),
   (str "html", wbSearchCI (str "html")), (str "css", wbSearchCI (str "css")),
   (str "typescript", wbSearchCI (str "typescript")), (str "php", wbSearchCI (str "php")),
   (str "c#", wbSearchCI (str "c#")), (str "c++", fun t => scanB cPlusPlusAt none t),
   (str "go", wbSearchCI (str "go")), (str "rust", wbSearchCI (str "rust")),
   (str "laravel", wbSearchCI (str "laravel")), (str "django", wbSearchCI (str "django")),
   (str "flask", wbSearchCI (str "flask")), (str "unity", wbSearchCI (str "unity")),
   (str "figma", wbSearchCI (str "figma")), (str "adobe xd", wbSearchCI (str "adobe xd")),
   (str "illustrator", wbSearchCI (str "illustrator")), (str "linux", wbSearchCI (str "linux")),
   (str "wpf", wbSearchCI (str "wpf")), (str "winform", wbSearchCI (str "winform")),
   (str "huawei cloud", wbSearchCI (str "huawei cloud"))]

/-- Complement of the cleaning filter `re.search(r'[^\w\s\-]', skill)`. -/
def skillChar (c : Char) : Bool := isWordCh c || pyIsSpace c || c = '-'

/-- Embeds `_extract_skills`: labeled list plus vocabulary keywords (deduplicated
against the current list), then cleaning (strip, length > 1, only
word/space/hyphen characters) and the cap at 20. -/
def extractSkills (text : List Char) : List (List Char) :=
  ((((technicalKeywordMatchers.foldl
        (fun acc km => if km.2 text && !acc.contains km.1 then acc ++ [km.1] else acc)
        (match searchLabel nonDotNl skillsAlts text with
         | some g => splitCleaned g
         | none => [])).map stripChars).filter
      (fun s => s ≠ [] && 1 < s.length && s.all skillChar))).take 20

def languageKeywords : List (List Char) :=
  [str "French", str "English", str "Native", str "Fluent"]

def languagesAlts : List (List Tok) :=
  [[Tok.lit (str "Langue"), Tok.opt 's'], [Tok.lit (str "Language"), Tok.opt 's']]

/-- Embeds `_extract_languages`: vocabulary keywords first, then the labeled list,
each appended only when not already present. -/
def extractLanguages (text : List Char) : List (List Char) :=
  (match searchLabel nonDotNl languagesAlts text with
   | some g => splitCleaned g
   | none => []).foldl
    (fun acc lang => if acc.contains lang then acc else acc ++ [lang])
    (languageKeywords.foldl
      (fun acc kw => if wbSearchCI kw text && !acc.contains kw then acc ++ [kw] else acc) [])

def certAlts : List (List Tok) :=
  [[Tok.lit (str "Certification"), Tok.opt 's'], [Tok.lit (str "Certificat"), Tok.opt 's'],
   [Tok.lit (str "Certificate"), Tok.opt 's']]

/-- Embeds `_extract_certifications`: the labeled list only. -/
def extractCertifications (text : List Char) : List (List Char) :=
  match searchLabel nonDotNl certAlts text with
  | some g => splitCleaned g
  | none => []

structure ProjEntry where
  name : List Char
  description : List Char
  technologies : List (List Char)
deriving DecidableEq

def projectKeywords : List (List Char) :=
  [str "LINA Project", str "AFRISOLUTION", str "Devsec website", str "Camtel Bluetech Challenge"]

/-- Embeds `_extract_projects`: for each known project name occurring
case-insensitively, an entry with the ±100-character context window. -/
def extractProjects (text : List Char) : List ProjEntry :=
  projectKeywords.foldl
    (fun acc kw =>
      match indexOfSub (lowerList text) (lowerList kw) with
      | some idx =>
        if (text.take (min text.length (idx + 100))).drop (idx - 100) = [] then acc
        else acc ++ [⟨kw, stripChars ((text.take (min text.length (idx + 100))).drop (idx - 100)), []⟩]
      | none => acc) []

def hobbiesAlts : List (List Tok) :=
  [[Tok.lit (str "Hobbie"), Tok.opt 's'],
   [Tok.lit (str "Centre"), Tok.opt 's', Tok.lit (str " d'intérêt")],
   [Tok.lit (str "Interest"), Tok.opt 's']]

def hobbyKeywords : List (List Char) :=
  [str "Sing", str "piano", str "Music", str "football", str "reading", str "video games"]

/-- Embeds `_extract_hobbies`: the labeled list, then vocabulary keywords appended
when not already present. -/
def extractHobbies (text : List Char) : List (List Char) :=
  hobbyKeywords.foldl
    (fun acc kw => if wbSearchCI kw text && !acc.contains kw then acc ++ [kw] else acc)
    (match searchLabel nonDotNl hobbiesAlts text with
     | some g => splitCleaned g
     | none => [])

/-! ### The assembled extractor -/

structure Metadata where
  text_length : Nat
  extraction_method : List Char
  confidence_score : ℚ
  note : List Char
deriving DecidableEq

structure ExtractionResult where
  personal_info : Option (List Char)
  contact_info : ContactInfo
  address : List Char
  professional_summary : List Char
  work_experience : List ExpEntry
  education : List EduEntry
  skills : List (List Char)
  languages : List (List Char)
  certifications : List (List Char)
  projects : List ProjEntry
  hobbies : List (List Char)
  extraction_metadata : Metadata
deriving DecidableEq

/-- Embeds `extract_cv_information`: normalize the text once, then run every
sub-extractor on the normalized text and assemble the result record. -/
def extract (text : List Char) : ExtractionResult where
  personal_info := extractPersonalInfo (cleanText text)
  contact_info := extractContactInfo (cleanText text)
  address := extractAddress (cleanText text)
  professional_summary := extractSummary (cleanText text)
  work_experience := extractWorkExperience (cleanText text)
  education := extractEducation (cleanText text)
  skills := extractSkills (cleanText text)
  languages := extractLanguages (cleanText text)
  certifications := extractCertifications (cleanText text)
  projects := extractProjects (cleanText text)
  hobbies := extractHobbies (cleanText text)
  extraction_metadata :=
    { text_length := (cleanText text).length
      extraction_method := str "improved_regex_based"
      confidence_score := calcConfidence (cleanText text)
      note := str "Extraction améliorée avec patterns optimisés" }

/-- The JSON keys of the serialized result, in the construction order of the
`cv_data` dict literal of `extract_cv_information`. -/
def resultKeys (_ : ExtractionResult) : List String :=
  ["personal_info", "contact_info", "address", "professional_summary",
   "work_experience", "education", "skills", "languages", "certifications",
   "projects", "hobbies", "extraction_metadata"]

/-- The JSON keys of the serialized `extraction_metadata` dict, in
construction order. -/
def metadataKeys (_ : Metadata) : List String :=
  ["text_length", "extraction_method", "confidence_score", "note"]

/-! ### Generic fold helpers for the claim proofs -/

theorem foldlPreserve {σ α : Type} (f : σ → α → σ) (P : σ → Prop)
    (hf : ∀ s a, P s → P (f s a)) :
    ∀ (l : List α) (s : σ), P s → P (l.foldl f s) := by
  intro l
  induction l with
  | nil => exact fun s h => h
  | cons a t ih => exact fun s h => ih (f s a) (hf s a h)

theorem foldlDedupNodup {α : Type} [DecidableEq α] (f : List α → α → List α)
    (hf : ∀ acc x, f acc x = acc ∨ (x ∉ acc ∧ f acc x = acc ++ [x])) :
    ∀ (l : List α) (acc : List α), acc.Nodup → (l.foldl f acc).Nodup := by
  intro l
  induction l with
  | nil => exact fun acc h => h
  | cons a t ih =>
    intro acc h
    rcases hf acc a with h2 | ⟨h2, h3⟩
    · rw [List.foldl_cons, h2]
      exact ih acc h
    · rw [List.foldl_cons, h3]
      exact ih _ (by simp [List.nodup_append, h, h2])

/-! ### Claim theorems -/

/-- C1: the extraction operation is total — in this embedding every
sub-extractor is a total function, so `extract` returns on every input string
— and its result always carries all twelve top-level keys of the `cv_data`
dict literal, in construction order, with the fixed method tag. -/
theorem extractTotalKeys (text : List Char) :
    resultKeys (extract text) =
      ["personal_info", "contact_info", "address", "professional_summary",
       "work_experience", "education", "skills", "languages", "certifications",
       "projects", "hobbies", "extraction_metadata"] ∧
    (extract text).extraction_metadata.extraction_method = str "improved_regex_based" :=
  ⟨rfl, rfl⟩

/-- Modelled on the spec's wording for the confidence heuristic (§4.2): the
additive weighted sum of the seven signals, clamped at 1.  To be compared with
`calcConfidence`, the transcription of `_calculate_confidence_score`. -/
def specConfidence (text : List Char) : ℚ :=
  min ((if 500 < text.length then (2 : ℚ)/10 else 0) +
       (if 1000 < text.length then (2 : ℚ)/10 else 0) +
       (if (emailSearch text).isSome then (15 : ℚ)/100 else 0) +
       (if phonePatFound text then (15 : ℚ)/100 else 0) +
       (if yearTokenFound text then (1 : ℚ)/10 else 0) +
       (if skillsKwFound text then (1 : ℚ)/10 else 0) +
       (if eduKwFound text then (1 : ℚ)/10 else 0)) 1

theorem calcEqSpec (t : List Char) : calcConfidence t = specConfidence t := by
  unfold calcConfidence specConfidence
  split_ifs <;> norm_num

theorem specConfidenceNonneg (t : List Char) : 0 ≤ specConfidence t := by
  unfold specConfidence
  refine le_min ?_ (by norm_num)
  split_ifs <;> norm_num

/-- C2: the confidence score of the result equals the additive clamped
heuristic fixed by the spec (evaluated on the normalized text), and it always
lies in [0, 1].  (The internal-fault default 0.5 of the source is unreachable
in this pure embedding.) -/
theorem confidenceSpec (text : List Char) :
    (extract text).extraction_metadata.confidence_score = specConfidence (cleanText text) ∧
    0 ≤ (extract text).extraction_metadata.confidence_score ∧
    (extract text).extraction_metadata.confidence_score ≤ 1 := by
  have h1 : (extract text).extraction_metadata.confidence_score = calcConfidence (cleanText text) := rfl
  rw [h1, calcEqSpec]
  refine ⟨rfl, specConfidenceNonneg _, ?_⟩
  unfold specConfidence
  exact min_le_right _ _

/-- C3 (counterexample): deleting the email-like substring `a@b.io` from a
text changes the `personal_info` field — the first-lines name fallback skips
lines containing `@`, so removing the email turns the first line into the
extracted `full_name`.  Fields are therefore not independent of edits to
another field's relevant text, contradicting the claim. -/
theorem fieldIndependenceCounterexample :
    str "someone a@b.io\nanother line" =
      str "someone " ++ str "a@b.io" ++ str "\nanother line" ∧
    emailSearch (str "a@b.io") = some (str "a@b.io") ∧
    str "someone \nanother line" = str "someone " ++ str "\nanother line" ∧
    (extract (str "someone a@b.io\nanother line")).personal_info = some (str "another line") ∧
    (extract (str "someone \nanother line")).personal_info = some (str "someone") := by
  refine ⟨by decide, by decide, by decide, by decide, by decide⟩

/-- C3 (amended): what does hold is that the sub-extractors share no state —
every field of the result is a function of the normalized text alone, so two
inputs with the same normalized text yield identical results. -/
theorem extractDeterministic (t₁ t₂ : List Char) (h : cleanText t₁ = cleanText t₂) :
    extract t₁ = extract t₂ := by
  unfold extract
  rw [h]

theorem extractDeterministicWitness :
    cleanText (str "a\n\nb") = cleanText (str "a\nb") ∧
    extract (str "a\n\nb") = extract (str "a\nb") :=
  ⟨by decide, extractDeterministic (str "a\n\nb") (str "a\nb") (by decide)⟩

/-- C4 (counterexample): the claim fails for `skills` (and `hobbies`): when
the labeled section itself lists an item twice, the split list is kept as-is —
only vocabulary keyword additions are guarded against duplicates — so
`"Skills: java, java"` yields the skill `java` twice (and
`"Hobbies: chess, chess"` the hobby `chess` twice). -/
theorem dedupCounterexample :
    (extract (str "Skills: java, java")).skills = [str "java", str "java"] ∧
    (extract (str "Hobbies: chess, chess")).hobbies = [str "chess", str "chess"] := by
  refine ⟨by decide, by decide⟩

/-- C4 (amended): deduplication does hold for `languages` — both the keyword
pass and the labeled-list pass of `_extract_languages` append only elements
not already present — so the languages sequence never repeats an element
(case-sensitive). `skills` and `hobbies` may repeat elements coming from the
labeled split. -/
theorem languagesNodup (text : List Char) : ((extract text).languages).Nodup := by
  show (extractLanguages (cleanText text)).Nodup
  unfold extractLanguages
  apply foldlDedupNodup
  · intro acc x
    by_cases h : acc.contains x
    · left
      simp only [if_pos h]
    · right
      refine ⟨by simpa using h, by simp only [if_neg h]⟩
  · apply foldlDedupNodup
    · intro acc x
      by_cases h : wbSearchCI x (cleanText text) && !acc.contains x
      · right
        have hmem : x ∉ acc := by
          intro hx
          have h2 : acc.contains x = true := by simpa using hx
          rw [h2] at h
          simp at h
        refine ⟨hmem, by simp only [if_pos h]⟩
      · left
        simp only [if_neg h]
    · exact List.nodup_nil

/-- The education line of the C6 scenario. -/
def eduLine2019 : List Char := str "Education: Bachelor of Science, 2019"

/-- Invariant carried through the education fold: either an already flushed
entry has the year token inside its degree, or the pending entry does (with a
non-empty degree, so it survives the flush guard). -/
def EduInv (s : Option EduEntry × List EduEntry) : Prop :=
  (∃ e ∈ s.2, containsSub (str "2019") e.degree = true ∧ e.degree ≠ []) ∨
  (∃ e, s.1 = some e ∧ containsSub (str "2019") e.degree = true ∧ e.degree ≠ [])

theorem eduUpdateDegree (e : EduEntry) (line : List Char) :
    (eduUpdate e line).degree = e.degree := by
  unfold eduUpdate
  split_ifs <;> rfl

theorem eduStepPreserve (s : Option EduEntry × List EduEntry) (line : List Char)
    (h : EduInv s) : EduInv (eduStep s line) := by
  obtain ⟨cur, acc⟩ := s
  rcases h with ⟨e, he, hp⟩ | ⟨e, he, hp⟩
  · -- witness already flushed: every branch extends or keeps acc
    unfold eduStep
    dsimp only
    by_cases hstart : eduStartLine line
    · simp only [if_pos hstart]
      cases cur with
      | some e' =>
        dsimp only
        by_cases hd : e'.degree ≠ []
        · rw [if_pos hd]
          exact Or.inl ⟨e, List.mem_append_left _ he, hp⟩
        · rw [if_neg hd]
          exact Or.inl ⟨e, he, hp⟩
      | none => exact Or.inl ⟨e, he, hp⟩
    · simp only [if_neg hstart]
      cases cur with
      | some e' =>
        dsimp only
        by_cases hs : stripChars line ≠ []
        · rw [if_pos hs]
          exact Or.inl ⟨e, he, hp⟩
        · rw [if_neg hs]
          exact Or.inl ⟨e, he, hp⟩
      | none => exact Or.inl ⟨e, he, hp⟩
  · -- witness pending
    have hcur : cur = some e := he
    subst hcur
    unfold eduStep
    dsimp only
    by_cases hstart : eduStartLine line
    · simp only [if_pos hstart]
      rw [if_pos hp.2]
      exact Or.inl ⟨e, List.mem_append_right _ (List.mem_cons_self e []), hp⟩
    · simp only [if_neg hstart]
      by_cases hs : stripChars line ≠ []
      · rw [if_pos hs]
        exact Or.inr ⟨eduUpdate e line, rfl, by rw [eduUpdateDegree]; exact hp.1,
          by rw [eduUpdateDegree]; exact hp.2⟩
      · rw [if_neg hs]
        exact Or.inr ⟨e, rfl, hp⟩

theorem eduStepEstablish (s : Option EduEntry × List EduEntry) :
    EduInv (eduStep s eduLine2019) := by
  obtain ⟨cur, acc⟩ := s
  unfold eduStep
  dsimp only
  rw [if_pos (show eduStartLine eduLine2019 = true from by decide)]
  cases cur with
  | some e =>
    dsimp only
    by_cases hd : e.degree ≠ []
    · rw [if_pos hd]
      exact Or.inr ⟨_, rfl, by decide, by decide⟩
    · rw [if_neg hd]
      exact Or.inr ⟨_, rfl, by decide, by decide⟩
  | none => exact Or.inr ⟨_, rfl, by decide, by decide⟩

/-- C6 (amended): on any input whose normalized form contains the line
`"Education: Bachelor of Science, 2019"`, the education sequence has an entry
whose **degree** contains `"2019"` — the matched line is captured whole as the
degree; the `year` field is only filled from a subsequent line. -/
theorem educationDegreeHasYear (text : List Char)
    (h : eduLine2019 ∈ splitNl (cleanText text)) :
    ∃ e ∈ (extract text).education, containsSub (str "2019") e.degree = true := by
  show ∃ e ∈ extractEducation (cleanText text), _
  obtain ⟨pre, post, hsplit⟩ := List.append_of_mem h
  unfold extractEducation
  rw [hsplit, List.foldl_append, List.foldl_cons]
  have hinv : EduInv (post.foldl eduStep (eduStep (pre.foldl eduStep (none, [])) eduLine2019)) :=
    foldlPreserve eduStep EduInv eduStepPreserve post _ (eduStepEstablish _)
  rcases hfin : post.foldl eduStep (eduStep (pre.foldl eduStep (none, [])) eduLine2019) with ⟨cur, acc⟩
  rw [hfin] at hinv
  rcases hinv with ⟨e, he, hp, _⟩ | ⟨e, hcur, hp, hd⟩
  · cases cur with
    | some e' =>
      dsimp only
      by_cases hd' : e'.degree ≠ []
      · rw [if_pos hd']
        exact ⟨e, List.mem_append_left _ he, hp⟩
      · rw [if_neg hd']
        exact ⟨e, he, hp⟩
    | none => exact ⟨e, he, hp⟩
  · dsimp only at hcur
    subst hcur
    dsimp only
    rw [if_pos hd]
    exact ⟨e, List.mem_append_right _ (List.mem_cons_self e []), hp⟩

theorem educationDegreeHasYearWitness :
    eduLine2019 ∈ splitNl (cleanText eduLine2019) ∧
    ∃ e ∈ (extract eduLine2019).education, containsSub (str "2019") e.degree = true :=
  ⟨by decide, educationDegreeHasYear eduLine2019 (by decide)⟩

/-- C6 (counterexample): for the input consisting exactly of the line
`"Education: Bachelor of Science, 2019"` (which contains no other education
markers), the single extracted entry has the whole line as its degree and an
**empty** `year` field — no entry's year contains `"2019"`, contrary to the
claim. -/
theorem educationYearCounterexample :
    (extract eduLine2019).education = [⟨eduLine2019, [], [], []⟩] ∧
    ((extract eduLine2019).education.all
      (fun e => !containsSub (str "2019") e.year)) = true := by
  refine ⟨by decide, by decide⟩

/-- C7 (counterexample): the line `"abcdef1"` is longer than 5 characters and
contains neither `@` nor `+`, and none of the four name patterns matches; the
claim therefore predicts `full_name = "abcdef1"`, but the code additionally
requires the fallback line to contain no digit, so no name is extracted. -/
theorem nameFallbackCounterexample :
    scanF nameAAt (cleanText (str "abcdef1")) = none ∧
    scanF nameBAt (cleanText (str "abcdef1")) = none ∧
    scanF nameCAt (cleanText (str "abcdef1")) = none ∧
    scanF nameDAt (cleanText (str "abcdef1")) = none ∧
    (5 < (str "abcdef1").length ∧ '@' ∉ str "abcdef1" ∧ '+' ∉ str "abcdef1") ∧
    (extract (str "abcdef1")).personal_info = none :=
  ⟨by decide, by decide, by decide, by decide, ⟨by decide, by decide, by decide⟩, by decide⟩

/-- C7 (amended): when no name pattern yields a qualifying first match, the
fallback scans the first 5 normalized lines and takes the first stripped line
that is longer than 5 characters, **contains no digit**, and contains neither
`@` nor `+`; `full_name` is absent when no such line exists. -/
theorem nameFallbackCharacterization (text : List Char)
    (hA : acceptName (scanF nameAAt (cleanText text)) = none)
    (hB : acceptName (scanF nameBAt (cleanText text)) = none)
    (hC : acceptName (scanF nameCAt (cleanText text)) = none)
    (hD : acceptName (scanF nameDAt (cleanText text)) = none) :
    (extract text).personal_info =
      (((splitNl (cleanText text)).take 5).map stripChars).find?
        (fun l => l ≠ [] && 5 < l.length && !l.any isDigitCh &&
          !l.contains '@' && !l.contains '+') := by
  show extractPersonalInfo (cleanText text) = _
  unfold extractPersonalInfo
  rw [hA, hB, hC, hD]
  rfl

theorem nameFallbackWitness :
    acceptName (scanF nameAAt (cleanText (str "hello world line\nfoo"))) = none ∧
    (extract (str "hello world line\nfoo")).personal_info = some (str "hello world line") := by
  refine ⟨by decide, ?_⟩
  rw [nameFallbackCharacterization (str "hello world line\nfoo")
    (by decide) (by decide) (by decide) (by decide)]
  decide

/-- C8: on empty input the extraction succeeds with every field empty/default,
text length 0 and confidence score exactly 0. -/
theorem emptyInputDefaults :
    (extract []).personal_info = none ∧
    (extract []).contact_info = ⟨none, none, none, none, none⟩ ∧
    (extract []).address = [] ∧
    (extract []).professional_summary = [] ∧
    (extract []).work_experience = [] ∧
    (extract []).education = [] ∧
    (extract []).skills = [] ∧
    (extract []).languages = [] ∧
    (extract []).certifications = [] ∧
    (extract []).projects = [] ∧
    (extract []).hobbies = [] ∧
    (extract []).extraction_metadata.text_length = 0 ∧
    (extract []).extraction_metadata.confidence_score = 0 := by
  refine ⟨by decide, by decide, by decide, by decide, by decide, by decide, by decide,
    by decide, by decide, by decide, by decide, rfl, ?_⟩
  show calcConfidence (cleanText []) = 0
  rw [show cleanText [] = ([] : List Char) from rfl, calcConfidence]
  norm_num [show (emailSearch ([] : List Char)).isSome = false from rfl,
    show phonePatFound [] = false from rfl,
    show yearTokenFound [] = false from rfl,
    show skillsKwFound [] = false from rfl,
    show eduKwFound [] = false from rfl]

/-- C9 (counterexample): the serialized `extraction_metadata` carries a fourth
key `note` (a fixed French annotation string) in addition to the three fields
the claim lists, so its key set is not exactly
{`text_length`, `extraction_method`, `confidence_score`}. -/
theorem metadataKeysCounterexample :
    metadataKeys ((extract []).extraction_metadata) =
      ["text_length", "extraction_method", "confidence_score", "note"] ∧
    (["text_length", "extraction_method", "confidence_score", "note"] ≠
      ["text_length", "extraction_method", "confidence_score"]) :=
  ⟨rfl, by decide⟩

/-- C9 (amended): the top level of the serialized result carries exactly the
twelve listed field names verbatim, in construction order, and
`extraction_metadata` carries exactly `text_length`, `extraction_method`,
`confidence_score` **plus the fixed `note` string field**. -/
theorem serializedKeysExact (text : List Char) :
    resultKeys (extract text) =
      ["personal_info", "contact_info", "address", "professional_summary",
       "work_experience", "education", "skills", "languages", "certifications",
       "projects", "hobbies", "extraction_metadata"] ∧
    metadataKeys ((extract text).extraction_metadata) =
      ["text_length", "extraction_method", "confidence_score", "note"] :=
  ⟨rfl, rfl⟩

theorem expStepTitles (s : Option ExpEntry × List ExpEntry) (line : List Char)
    (h : ∀ e ∈ s.2, e.title ≠ []) : ∀ e ∈ (expStep s line).2, e.title ≠ [] := by
  obtain ⟨cur, acc⟩ := s
  unfold expStep
  dsimp only
  by_cases hstart : expStartLine line
  · simp only [if_pos hstart]
    cases cur with
    | some e' =>
      dsimp only
      by_cases hd : e'.title ≠ []
      · rw [if_pos hd]
        intro e he
        rcases List.mem_append.mp he with h2 | h2
        · exact h e h2
        · simp at h2
          subst h2
          exact hd
      · rw [if_neg hd]
        exact h
    | none => exact h
  · simp only [if_neg hstart]
    cases cur with
    | some e' =>
      dsimp only
      by_cases hs : stripChars line ≠ []
      · rw [if_pos hs]
        exact h
      · rw [if_neg hs]
        exact h
    | none => exact h

theorem eduStepDegrees (s : Option EduEntry × List EduEntry) (line : List Char)
    (h : ∀ e ∈ s.2, e.degree ≠ []) : ∀ e ∈ (eduStep s line).2, e.degree ≠ [] := by
  obtain ⟨cur, acc⟩ := s
  unfold eduStep
  dsimp only
  by_cases hstart : eduStartLine line
  · simp only [if_pos hstart]
    cases cur with
    | some e' =>
      dsimp only
      by_cases hd : e'.degree ≠ []
      · rw [if_pos hd]
        intro e he
        rcases List.mem_append.mp he with h2 | h2
        · exact h e h2
        · simp at h2
          subst h2
          exact hd
      · rw [if_neg hd]
        exact h
    | none => exact h
  · simp only [if_neg hstart]
    cases cur with
    | some e' =>
      dsimp only
      by_cases hs : stripChars line ≠ []
      · rw [if_pos hs]
        exact h
      · rw [if_neg hs]
        exact h
    | none => exact h

theorem extractWorkTitles (text : List Char) :
    ∀ e ∈ extractWorkExperience text, e.title ≠ [] := by
  unfold extractWorkExperience
  have hinv : ∀ e ∈ ((splitNl text).foldl expStep (none, [])).2, e.title ≠ [] :=
    foldlPreserve expStep (fun s => ∀ e ∈ s.2, e.title ≠ []) expStepTitles _ _ (by simp)
  rcases hfin : (splitNl text).foldl expStep (none, []) with ⟨cur, acc⟩
  rw [hfin] at hinv
  cases cur with
  | some e =>
    dsimp only
    by_cases hd : e.title ≠ []
    · rw [if_pos hd]
      intro e' he'
      rcases List.mem_append.mp he' with h2 | h2
      · exact hinv e' h2
      · simp at h2
        subst h2
        exact hd
    · rw [if_neg hd]
      exact hinv
  | none => exact hinv

theorem extractEduDegrees (text : List Char) :
    ∀ e ∈ extractEducation text, e.degree ≠ [] := by
  unfold extractEducation
  have hinv : ∀ e ∈ ((splitNl text).foldl eduStep (none, [])).2, e.degree ≠ [] :=
    foldlPreserve eduStep (fun s => ∀ e ∈ s.2, e.degree ≠ []) eduStepDegrees _ _ (by simp)
  rcases hfin : (splitNl text).foldl eduStep (none, []) with ⟨cur, acc⟩
  rw [hfin] at hinv
  cases cur with
  | some e =>
    dsimp only
    by_cases hd : e.degree ≠ []
    · rw [if_pos hd]
      intro e' he'
      rcases List.mem_append.mp he' with h2 | h2
      · exact hinv e' h2
      · simp at h2
        subst h2
        exact hd
    · rw [if_neg hd]
      exact hinv
  | none => exact hinv

/-- C10: every work-experience entry of a result has a non-empty title, and
every education entry a non-empty degree — an accumulated entry is only
appended (on a new marker or at end of input) when that field is truthy. -/
theorem entryTitlesNonempty (text : List Char) :
    ((extract text).work_experience.all (fun e => !e.title.isEmpty)) = true ∧
    ((extract text).education.all (fun e => !e.degree.isEmpty)) = true := by
  constructor
  · rw [List.all_eq_true]
    intro e he
    simpa using extractWorkTitles (cleanText text) e he
  · rw [List.all_eq_true]
    intro e he
    simpa using extractEduDegrees (cleanText text) e he
